import Mathlib

/-!
Shallow embedding of the one-way folder synchronizer in `src/main.py`
(source tree mirroring: forward create/update pass, reverse delete pass,
change counters, scheduler loop), together with proofs that settle the
frozen claims about it.

Modelling conventions:
* a filesystem tree is a `Node`: either a regular file carrying its byte
  content, its modification time and a readability bit, or a directory
  with a list of named children (list order models the OS enumeration
  order used by `os.walk`);
* relative paths are lists of name components (the join key between the
  source and replica trees);
* `calculate_sha1` hashes only the byte content of a file; the hash is
  modelled as the content itself, a collision-free stand-in that is
  compared for equality exactly where the code compares digests, and it
  raises (returns `.error`) when the file is not readable, mirroring the
  `IOError` that `open`/`read` can raise inside the real function;
* operations that the code wraps in `try/except` blocks are modelled as
  `Option`-returning tree edits (with `none` for a raised `OSError`),
  while the uncaught exceptions propagate through `Except`;
* environment-dependent failures of `os.remove` and `shutil.rmtree`
  (permissions) are supplied by an oracle `FsEnv`.
-/

namespace SyncSpec

/-- FileData is the per-file state the program reads: byte content
(abstracted as a list of byte values), the modification timestamp from
`os.path.getmtime`, and whether the file can be opened for reading. -/
structure FileData where
  content : List Nat
  mtime : Nat
  readable : Bool
deriving Repr, DecidableEq

/-- Node is a filesystem tree: a regular file or a directory whose
children appear in OS enumeration order. -/
inductive Node where
  | file (data : FileData)
  | dir (children : List (String × Node))
deriving Repr

/-- findChild returns the entry of a directory listing named `x`
(the first one, which is the only one on a real filesystem). -/
def findChild (cs : List (String × Node)) (x : String) : Option Node :=
  match cs with
  | [] => none
  | (name, n) :: rest => if name = x then some n else findChild rest x

/-- hasName tests whether a directory listing contains an entry named `x`. -/
def hasName (cs : List (String × Node)) (x : String) : Bool :=
  match cs with
  | [] => false
  | (name, _) :: rest => name = x || hasName rest x

/-- setChild replaces the entry named `x` (or appends a new one) in a
directory listing. -/
def setChild (cs : List (String × Node)) (x : String) (n : Node) : List (String × Node) :=
  match cs with
  | [] => [(x, n)]
  | (name, c) :: rest => if name = x then (x, n) :: rest else (name, c) :: setChild rest x n

/-- lookup resolves a relative path against a tree, as the succession of
`os.path` accesses does; `some` plays the role of `os.path.exists`. -/
def Node.lookup : Node → List String → Option Node
  | n, [] => some n
  | .file _, _ :: _ => none
  | .dir cs, x :: xs =>
    match findChild cs x with
    | none => none
    | some c => c.lookup xs

/-- freshDirs builds the chain of new empty directories that
`os.makedirs` creates below the deepest existing ancestor. -/
def freshDirs : List String → Node
  | [] => .dir []
  | x :: xs => .dir [(x, freshDirs xs)]

/-- makedirs models `os.makedirs(path)` (default `exist_ok=False`):
it creates the leaf directory and any missing intermediates, and raises
(`none`) when the leaf already exists or a path component is a file. -/
def Node.makedirs : Node → List String → Option Node
  | _, [] => none
  | .file _, _ :: _ => none
  | .dir cs, x :: xs =>
    match findChild cs x with
    | none => some (.dir (setChild cs x (freshDirs xs)))
    | some c =>
      match c.makedirs xs with
      | none => none
      | some c2 => some (.dir (setChild cs x c2))

/-- writeFile writes the file named `x` with data `d` inside the
directory at path `p`: it creates or overwrites a regular file at
`p ++ [x]`, and raises (`none`) when the parent chain is missing or not
made of directories, or when the target is itself a directory. -/
def Node.writeFile : Node → List String → String → FileData → Option Node
  | .file _, _, _, _ => none
  | .dir cs, [], x, d =>
    match findChild cs x with
    | some (.dir _) => none
    | _ => some (.dir (setChild cs x (.file d)))
  | .dir cs, y :: p, x, d =>
    match findChild cs y with
    | none => none
    | some c =>
      match c.writeFile p x d with
      | none => none
      | some c2 => some (.dir (setChild cs y c2))

/-- copy2 models `shutil.copy2(source_file, dst)` where `dst` is the
join of the replica directory path `p` and the source base name `name`
(which is how both call sites build it): the source file is opened for
reading, so an unreadable source raises `PermissionError` (`none`, the
caught error path) and nothing is copied; otherwise content and
metadata (in particular the modification time inside `d`) are copied to
`dst`; when `dst` is an existing directory the file is instead copied
into it under the source base name; a raised `OSError` is `none`. -/
def Node.copy2 (root : Node) (p : List String) (name : String) (d : FileData) : Option Node :=
  if d.readable then
    match root.lookup (p ++ [name]) with
    | some (.dir _) => root.writeFile (p ++ [name]) name d
    | _ => root.writeFile p name d
  else none

/-- getmtime models `os.path.getmtime`; directory timestamps are
environment dependent and never drive a decision in any claim, so they
are modelled as the constant 0. -/
def Node.getmtime : Node → Nat
  | .file d => d.mtime
  | .dir _ => 0

/-- calculate_sha1 models the hash of the byte content computed by
`calculate_sha1` in `src/main.py` (read in 4096-byte chunks, digested):
a pure function of the content, modelled as the content itself, raising
when the file cannot be opened for reading. -/
def calculate_sha1 (d : FileData) : Except Unit (List Nat) :=
  if d.readable then .ok d.content else .error ()

/-- sha1OfNode applies `calculate_sha1` to whatever sits at a path:
opening a directory raises `IsADirectoryError`, which the program does
not catch. -/
def sha1OfNode : Node → Except Unit (List Nat)
  | .file d => calculate_sha1 d
  | .dir _ => .error ()

/-- Changes is the `changes` list of the program: files changed and
folders changed, accumulated over one cycle. -/
abbrev Changes := Nat × Nat

/-- Ev is one logged line of the cycle: a success message of an applied
action, or the single error line produced by a caught `OSError` or
`PermissionError`. -/
inductive Ev where
  | createdFolder (p : List String)
  | copiedFile (p : List String)
  | updatedFile (p : List String)
  | deletedFile (p : List String)
  | deletedFolder (p : List String) (nFiles nDirs : Nat)
  | errorEv (op : String) (p : List String)
deriving Repr, DecidableEq

/-- evPath is the replica path an event is about. -/
def evPath : Ev → List String
  | .createdFolder p => p
  | .copiedFile p => p
  | .updatedFile p => p
  | .deletedFile p => p
  | .deletedFolder p _ _ => p
  | .errorEv _ p => p

/-- FsEnv supplies the environment-dependent outcome (permissions,
transient OS errors) of the two deletion primitives at each path. -/
structure FsEnv where
  removeOk : List String → Bool
  rmtreeOk : List String → Bool

/-- allOkEnv is the environment in which every deletion succeeds. -/
def allOkEnv : FsEnv := ⟨fun _ => true, fun _ => true⟩

/-- copy_or_update_file models lines 81-109: `shutil.copy2` wrapped in
`try/except`; on success one Copied/Updated line is logged and the file
counter is incremented, on a caught error exactly one error line is
logged and nothing else happens. -/
def copy_or_update_file (replica : Node) (p : List String) (name : String) (d : FileData)
    (isUpdate : Bool) (ch : Changes) : Node × Changes × List Ev :=
  let rf := p ++ [name]
  match replica.copy2 p name d with
  | some r =>
    (r, (ch.1 + 1, ch.2), [if isUpdate then Ev.updatedFile rf else Ev.copiedFile rf])
  | none => (replica, ch, [Ev.errorEv "copy/update" rf])

/-- create_folder models lines 112-121: `os.makedirs` wrapped in
`try/except`; on success one Created line and a folder counter
increment, on a caught error exactly one error line. -/
def create_folder (replica : Node) (p : List String) (ch : Changes) : Node × Changes × List Ev :=
  match replica.makedirs p with
  | some r => (r, (ch.1, ch.2 + 1), [Ev.createdFolder p])
  | none => (replica, ch, [Ev.errorEv "create" p])

/-- syncFile models the per-file body of the forward loop, lines
133-146: a missing replica file is copied; an existing one is updated
exactly when the modification times differ or (short-circuit `or`, so
only evaluated on equal times) the two digests differ; digest
computation is not inside any `try/except`, so its failure escapes as
`.error`. -/
def syncFile (replica : Node) (p : List String) (name : String) (d : FileData)
    (ch : Changes) : Except Unit (Node × Changes × List Ev) :=
  let rf := p ++ [name]
  match replica.lookup rf with
  | none => .ok (copy_or_update_file replica p name d false ch)
  | some rnode =>
    if d.mtime ≠ rnode.getmtime then
      .ok (copy_or_update_file replica p name d true ch)
    else
      match calculate_sha1 d with
      | .error e => .error e
      | .ok hs =>
        match sha1OfNode rnode with
        | .error e => .error e
        | .ok hr =>
          if hs ≠ hr then
            .ok (copy_or_update_file replica p name d true ch)
          else
            .ok (replica, ch, [])

/-- fwdFiles runs the `for file_name in files` loop of one `os.walk`
iteration over the source entries `cs` of the directory at relative path
`p`, skipping subdirectory entries (walk reports them separately). -/
def fwdFiles (p : List String) (cs : List (String × Node)) (replica : Node) (ch : Changes) :
    Except Unit (Node × Changes × List Ev) :=
  match cs with
  | [] => .ok (replica, ch, [])
  | (name, .file d) :: rest =>
    match syncFile replica p name d ch with
    | .error e => .error e
    | .ok (r, c, es) =>
      match fwdFiles p rest r c with
      | .error e => .error e
      | .ok (r2, c2, es2) => .ok (r2, c2, es ++ es2)
  | (_, .dir _) :: rest => fwdFiles p rest replica ch

mutual
/-- fwdDir models one `os.walk(source_dir)` iteration of
`create_or_update_files_and_folders` (lines 124-146) rooted at the
source directory with entries `cs` and relative path `p`, followed by
the walk of its subtrees: create the replica directory when
`os.path.exists` fails, then handle the files, then recurse top-down. -/
def fwdDir (p : List String) (cs : List (String × Node)) (replica : Node) (ch : Changes) :
    Except Unit (Node × Changes × List Ev) :=
  match (if (replica.lookup p).isSome then (replica, ch, ([] : List Ev))
         else create_folder replica p ch) with
  | (r1, c1, e1) =>
    match fwdFiles p cs r1 c1 with
    | .error e => .error e
    | .ok (r2, c2, e2) =>
      match fwdSubdirs p cs r2 c2 with
      | .error e => .error e
      | .ok (r3, c3, e3) => .ok (r3, c3, e1 ++ e2 ++ e3)
termination_by (sizeOf cs, 1)

/-- fwdSubdirs recurses into the subdirectory entries of `cs` in
enumeration order, as the walk does after yielding the current root. -/
def fwdSubdirs (p : List String) (cs : List (String × Node)) (replica : Node) (ch : Changes) :
    Except Unit (Node × Changes × List Ev) :=
  match cs with
  | [] => .ok (replica, ch, [])
  | (name, .dir ds) :: rest =>
    match fwdDir (p ++ [name]) ds replica ch with
    | .error e => .error e
    | .ok (r, c, es) =>
      match fwdSubdirs p rest r c with
      | .error e => .error e
      | .ok (r2, c2, es2) => .ok (r2, c2, es ++ es2)
  | (_, .file _) :: rest => fwdSubdirs p rest replica ch
termination_by (sizeOf cs, 0)
end

/-- create_or_update_files_and_folders models lines 124-146 for the
whole source root; `os.walk` of a non-directory yields nothing. -/
def create_or_update_files_and_folders (source replica : Node) (ch : Changes) :
    Except Unit (Node × Changes × List Ev) :=
  match source with
  | .file _ => .ok (replica, ch, [])
  | .dir cs => fwdDir [] cs replica ch

/-- countFilesIn sums `len(files)` over the `os.walk` iterations of a
subtree, as the counting loop of `delete_folder` (lines 166-168) does:
the number of regular files anywhere below the directory. -/
def countFilesIn : List (String × Node) → Nat
  | [] => 0
  | (_, .file _) :: rest => countFilesIn rest + 1
  | (_, .dir ds) :: rest => countFilesIn ds + countFilesIn rest

/-- countSubdirsIn sums `len(dirs)` over the `os.walk` iterations of a
subtree: the number of directories strictly below the walked root. -/
def countSubdirsIn : List (String × Node) → Nat
  | [] => 0
  | (_, .file _) :: rest => countSubdirsIn rest
  | (_, .dir ds) :: rest => countSubdirsIn ds + countSubdirsIn rest + 1

/-- delete_folder models lines 161-181: count the files and
subdirectories of the doomed replica folder with a walk, add both counts
to the cycle counters, then attempt `shutil.rmtree` (its success is the
`rmOk` oracle bit); on success one Deleted line is logged and the folder
counter is incremented once more for the folder itself; on a caught
error exactly one error line is logged, after the counters were already
increased. The returned flag tells whether the folder is gone. -/
def delete_folder (p : List String) (ds : List (String × Node)) (rmOk : Bool)
    (ch : Changes) : Changes × List Ev × Bool :=
  let nf := countFilesIn ds
  let nd := countSubdirsIn ds
  if rmOk then
    ((ch.1 + nf, ch.2 + nd + 1), [Ev.deletedFolder p nf nd], true)
  else
    ((ch.1 + nf, ch.2 + nd), [Ev.errorEv "delete" p], false)

/-- revFiles runs the `for file_name in files` loop of one reverse-walk
iteration (lines 190-195): every replica file whose path does not exist
in the source (`os.path.exists`, kind-blind) is removed; `os.remove` is
wrapped in `try/except`, so a failure logs exactly one error line. -/
def revFiles (source : Node) (env : FsEnv) (p : List String)
    (cs : List (String × Node)) (ch : Changes) : Changes × List Ev :=
  match cs with
  | [] => (ch, [])
  | (name, .file _) :: rest =>
    if (source.lookup (p ++ [name])).isNone then
      if env.removeOk (p ++ [name]) then
        let (c2, e2) := revFiles source env p rest (ch.1 + 1, ch.2)
        (c2, Ev.deletedFile (p ++ [name]) :: e2)
      else
        let (c2, e2) := revFiles source env p rest ch
        (c2, Ev.errorEv "delete" (p ++ [name]) :: e2)
    else revFiles source env p rest ch
  | (_, .dir _) :: rest => revFiles source env p rest ch

/-- revDirs runs the `for dir_name in dirs` loop of one reverse-walk
iteration (lines 197-202): every replica directory whose path does not
exist in the source (`os.path.exists`, kind-blind) goes through
`delete_folder`. -/
def revDirs (source : Node) (env : FsEnv) (p : List String)
    (cs : List (String × Node)) (ch : Changes) : Changes × List Ev :=
  match cs with
  | [] => (ch, [])
  | (name, .dir ds) :: rest =>
    if (source.lookup (p ++ [name])).isNone then
      let r := delete_folder (p ++ [name]) ds (env.rmtreeOk (p ++ [name])) ch
      let (c2, e2) := revDirs source env p rest r.1
      (c2, r.2.1 ++ e2)
    else revDirs source env p rest ch
  | (_, .file _) :: rest => revDirs source env p rest ch

/-- wasFileDeleted recomputes the (deterministic) decision of `revFiles`
for one file entry: gone exactly when its path is missing from the
source and `os.remove` succeeded. -/
def wasFileDeleted (source : Node) (env : FsEnv) (q : List String) : Bool :=
  (source.lookup q).isNone && env.removeOk q

/-- wasDirDeleted recomputes the (deterministic) decision of `revDirs`
for one directory entry: gone exactly when its path is missing from the
source and `shutil.rmtree` succeeded. -/
def wasDirDeleted (source : Node) (env : FsEnv) (q : List String) : Bool :=
  (source.lookup q).isNone && env.rmtreeOk q

mutual
/-- revDir models one `os.walk(replica_dir)` iteration of
`remove_deleted_files_and_folders` (lines 184-202) over the replica
directory with entries `cs` at relative path `p`, and the walk of what
remains below it: delete the stray files, then the stray folders, then
descend; the walk silently skips a directory removed meanwhile (its
`scandir` raises and `os.walk` ignores the error), so only surviving
directories are descended into. Returns the surviving entries, the
updated counters and the logged lines. -/
def revDir (source : Node) (env : FsEnv) (p : List String)
    (cs : List (String × Node)) (ch : Changes) :
    List (String × Node) × Changes × List Ev :=
  match revFiles source env p cs ch with
  | (c1, e1) =>
    match revDirs source env p cs c1 with
    | (c2, e2) =>
      match revDescend source env p cs c2 with
      | (cs3, c3, e3) => (cs3, c3, e1 ++ e2 ++ e3)
termination_by (sizeOf cs, 1)

/-- revDescend rebuilds the directory listing after one reverse-walk
iteration: entries the loops removed are dropped (decisions recomputed
via the deterministic oracles), and each surviving subdirectory is
walked in turn. -/
def revDescend (source : Node) (env : FsEnv) (p : List String)
    (cs : List (String × Node)) (ch : Changes) :
    List (String × Node) × Changes × List Ev :=
  match cs with
  | [] => ([], ch, [])
  | (name, .file d) :: rest =>
    match revDescend source env p rest ch with
    | (rest2, c2, e2) =>
      if wasFileDeleted source env (p ++ [name]) then (rest2, c2, e2)
      else ((name, .file d) :: rest2, c2, e2)
  | (name, .dir ds) :: rest =>
    if wasDirDeleted source env (p ++ [name]) then revDescend source env p rest ch
    else
      match revDir source env (p ++ [name]) ds ch with
      | (ds2, c2, e2) =>
        match revDescend source env p rest c2 with
        | (rest2, c3, e3) => ((name, .dir ds2) :: rest2, c3, e2 ++ e3)
termination_by (sizeOf cs, 0)
end

/-- remove_deleted_files_and_folders models lines 184-202 for the whole
replica root; `os.walk` of a non-directory yields nothing. -/
def remove_deleted_files_and_folders (source replica : Node) (env : FsEnv) (ch : Changes) :
    Node × Changes × List Ev :=
  match replica with
  | .file d => (.file d, ch, [])
  | .dir cs =>
    match revDir source env [] cs ch with
    | (cs2, ch2, evs) => (.dir cs2, ch2, evs)

mutual
/-- wfNode states the filesystem well-formedness the OS guarantees for
every real tree: names are distinct within each directory, recursively. -/
def wfNode : Node → Bool
  | .file _ => true
  | .dir cs => wfChildren cs

/-- wfChildren is `wfNode` for a directory listing. -/
def wfChildren : List (String × Node) → Bool
  | [] => true
  | (name, c) :: rest => !(hasName rest name) && wfNode c && wfChildren rest
end

mutual
/-- allReadableNode states that every regular file in a tree can be
opened for reading (no `PermissionError` on any source read). -/
def allReadableNode : Node → Bool
  | .file d => d.readable
  | .dir cs => allReadableChildren cs

/-- allReadableChildren is `allReadableNode` for a directory listing. -/
def allReadableChildren : List (String × Node) → Bool
  | [] => true
  | (_, c) :: rest => allReadableNode c && allReadableChildren rest
end

/-- coveredChildren states that every entry of a replica subtree rooted
at relative path `p` has some entry (of whatever kind) at the same
relative path in the source, which is exactly the `os.path.exists`
condition the reverse pass tests. -/
def coveredChildren (source : Node) (p : List String) : List (String × Node) → Bool
  | [] => true
  | (name, .file _) :: rest =>
    (source.lookup (p ++ [name])).isSome && coveredChildren source p rest
  | (name, .dir ds) :: rest =>
    (source.lookup (p ++ [name])).isSome && coveredChildren source (p ++ [name]) ds &&
      coveredChildren source p rest

/-- fileDataAt returns the data of the regular file at a path, if one
is there. -/
def fileDataAt (r : Node) (q : List String) : Option FileData :=
  match r.lookup q with
  | some (.file d) => some d
  | _ => none

/-- isDirAt tells whether a directory sits at a path. -/
def isDirAt (r : Node) (q : List String) : Bool :=
  match r.lookup q with
  | some (.dir _) => true
  | _ => false

/-- mirroredChildren states that every entry of the source subtree with
entries `cs` below relative path `p` is present in the replica at the
same relative path, with the same kind, and for files with identical
data (content, modification time, readability) and readable content, as
a completed copy pass with `shutil.copy2` metadata preservation leaves
it. -/
def mirroredChildren (replica : Node) (p : List String) : List (String × Node) → Bool
  | [] => true
  | (name, .file d) :: rest =>
    decide (fileDataAt replica (p ++ [name]) = some d) && d.readable &&
      mirroredChildren replica p rest
  | (name, .dir ds) :: rest =>
    isDirAt replica (p ++ [name]) && mirroredChildren replica (p ++ [name]) ds &&
      mirroredChildren replica p rest

/-- matchAt relates what sits at one relative path in two trees: both
absent, both directories, or both files with the same byte content. -/
def matchAt : Option Node → Option Node → Prop
  | none, none => True
  | some (.dir _), some (.dir _) => True
  | some (.file d1), some (.file d2) => d1.content = d2.content
  | _, _ => False

/-- matchFullAt additionally requires identical file metadata, which is
what `shutil.copy2` establishes. -/
def matchFullAt : Option Node → Option Node → Prop
  | none, none => True
  | some (.dir _), some (.dir _) => True
  | some (.file d1), some (.file d2) => d1 = d2
  | _, _ => False

/-- underPath decides whether `q` is a proper ancestor path of `r`
(strict: a strictly shorter leading segment of it). -/
def underPath (q r : List String) : Bool :=
  match q, r with
  | [], [] => false
  | [], _ :: _ => true
  | _ :: _, [] => false
  | x :: xs, y :: ys => x == y && underPath xs ys

/-- startsWith decides whether `q` is a leading segment of `r`
(possibly all of it): the path `r` lies at or below the path `q`. -/
def startsWith : List String → List String → Bool
  | [], _ => true
  | _ :: _, [] => false
  | x :: xs, y :: ys => x == y && startsWith xs ys

/-- CheckResult is the outcome of `check_input` (lines 43-55): return
normally, raise `FolderNotFoundError` for a bad directory, or
`sys.exit(1)` when `int(interval)` raises `ValueError`. -/
inductive CheckResult where
  | ok
  | folderNotFound (which : String)
  | exitBadInterval
deriving Repr, DecidableEq

/-- check_input models lines 43-55: each root must exist and be a
directory; the interval string must parse as an integer (`interval` is
its parse result, `none` for a `ValueError`); nothing else about the
interval is inspected. -/
def check_input (sourceIsDir replicaIsDir : Bool) (interval : Option Int) : CheckResult :=
  if !sourceIsDir then .folderNotFound "source"
  else if !replicaIsDir then .folderNotFound "replica"
  else
    match interval with
    | none => .exitBadInterval
    | some _ => .ok

/-- LoopEv is one observable step of the `sync_folders` loop: a cycle
begins (the `while` condition read the stop flag as unset), a cycle runs
to completion (passes and summary), the between-cycle
`stop_event.wait(interval)` timed out, or it returned `True` because the
flag was set, breaking the loop. -/
inductive LoopEv where
  | cycleStart (n : Nat)
  | cycleEnd (n : Nat)
  | waitTimeout (n : Nat)
  | waitSignaled (n : Nat)
deriving Repr, DecidableEq

/-- sync_folders_events models the control flow of `sync_folders`
(lines 205-224) as the list of loop events, abstracting each cycle body
into its start and completion. The stop flag is set at most once and is
read at two points per iteration: the `while` condition and the wait;
`t` counts how many of those reads return `False` before the flag is
first seen set (so `t = 0` means it was set before the loop began, and a
flag that is never set corresponds to every finite prefix). The wait
duration itself does not influence which events occur: a non-positive
interval only makes the wait return immediately. -/
def sync_folders_events : Nat → Nat → List LoopEv
  | 0, _ => []
  | 1, n => [LoopEv.cycleStart n, LoopEv.cycleEnd n, LoopEv.waitSignaled n]
  | t + 2, n =>
    LoopEv.cycleStart n :: LoopEv.cycleEnd n :: LoopEv.waitTimeout n ::
      sync_folders_events t (n + 1)

/-- syncTrace is the event list of `sync_folders` from process start,
cycles numbered from 1. -/
def syncTrace (t : Nat) : List LoopEv := sync_folders_events t 1

/-- totalFiles counts, along the wording of the claims, the files
recursively contained in a folder. -/
def totalFiles : List (String × Node) → Nat
  | [] => 0
  | (_, .file _) :: rest => totalFiles rest + 1
  | (_, .dir ds) :: rest => totalFiles ds + totalFiles rest

/-- totalSubfolders counts, along the wording of the claims, the
subfolders recursively contained in a folder (the folder itself not
included). -/
def totalSubfolders : List (String × Node) → Nat
  | [] => 0
  | (_, .file _) :: rest => totalSubfolders rest
  | (_, .dir ds) :: rest => totalSubfolders ds + totalSubfolders rest + 1

/-- sync_cycle models one iteration of the `sync_folders` loop body
(lines 208-221): reset the counters, run the forward pass, then the
reverse pass on what it left; an exception escaping the forward pass
kills the cycle (and with it the sync thread), so nothing after it
runs. -/
def sync_cycle (source replica : Node) (env : FsEnv) :
    Except Unit (Node × Changes × List Ev) :=
  match create_or_update_files_and_folders source replica (0, 0) with
  | .error e => .error e
  | .ok (r1, ch1, e1) =>
    match remove_deleted_files_and_folders source r1 env ch1 with
    | (r2, ch2, e2) => .ok (r2, ch2, e1 ++ e2)

/-! Basic lemmas about the tree primitives. -/

theorem lookup_nil (n : Node) : n.lookup [] = some n := by simp [Node.lookup]

theorem lookup_append (p q : List String) (n : Node) :
    n.lookup (p ++ q) = (n.lookup p).bind (fun m => m.lookup q) := by
  induction p generalizing n with
  | nil => simp [Node.lookup]
  | cons x xs ih =>
    cases n with
    | file d => simp [Node.lookup]
    | dir cs =>
      simp only [List.cons_append, Node.lookup]
      cases findChild cs x with
      | none => simp
      | some c => simpa using ih c

theorem lookup_isSome_of_append {p q : List String} {n : Node}
    (h : (n.lookup (p ++ q)).isSome = true) : (n.lookup p).isSome = true := by
  rw [lookup_append] at h
  cases hp : n.lookup p with
  | none => rw [hp] at h; simp at h
  | some m => simp

theorem lookup_parent_dir {p : List String} {x : String} {n m : Node}
    (h : n.lookup (p ++ [x]) = some m) :
    ∃ cs, n.lookup p = some (.dir cs) ∧ findChild cs x = some m := by
  rw [lookup_append] at h
  cases hp : n.lookup p with
  | none => rw [hp] at h; simp at h
  | some c =>
    rw [hp] at h
    cases c with
    | file d => simp [Node.lookup] at h
    | dir cs =>
      refine ⟨cs, rfl, ?_⟩
      simp only [Option.some_bind, Node.lookup] at h
      cases hf : findChild cs x with
      | none => rw [hf] at h; simp at h
      | some c2 =>
        rw [hf] at h
        exact h

theorem findChild_setChild (cs : List (String × Node)) (x y : String) (m : Node) :
    findChild (setChild cs x m) y = if y = x then some m else findChild cs y := by
  induction cs with
  | nil =>
    by_cases h : y = x
    · subst h; simp [setChild, findChild]
    · simp [setChild, findChild, h, Ne.symm h]
  | cons c rest ih =>
    obtain ⟨name, cn⟩ := c
    by_cases hx : name = x
    · subst hx
      by_cases hy : y = name
      · subst hy; simp [setChild, findChild]
      · simp [setChild, findChild, hy, Ne.symm hy]
    · by_cases hy : name = y
      · subst hy
        simp [setChild, findChild, hx, Ne.symm hx]
      · simp [setChild, findChild, hx, hy, ih]

theorem findChild_of_hasName_eq_false {cs : List (String × Node)} {x : String}
    (h : hasName cs x = false) : findChild cs x = none := by
  induction cs with
  | nil => rfl
  | cons e rest ih =>
    obtain ⟨name, cn⟩ := e
    simp only [hasName, Bool.or_eq_false_iff, decide_eq_false_iff_not] at h
    simp [findChild, h.1, ih h.2]

theorem wfChildren_findChild {cs : List (String × Node)} {x : String} {c : Node}
    (hwf : wfChildren cs = true) (h : findChild cs x = some c) : wfNode c = true := by
  induction cs with
  | nil => simp [findChild] at h
  | cons e rest ih =>
    obtain ⟨name, cn⟩ := e
    simp only [findChild] at h
    simp only [wfChildren, Bool.and_eq_true] at hwf
    by_cases hx : name = x
    · rw [if_pos hx] at h
      cases h
      exact hwf.1.2
    · rw [if_neg hx] at h
      exact ih hwf.2 h

theorem hasName_setChild (cs : List (String × Node)) (x y : String) (n : Node) :
    hasName (setChild cs x n) y = (hasName cs y || decide (x = y)) := by
  induction cs with
  | nil => simp [setChild, hasName]
  | cons e rest ih =>
    obtain ⟨name, cn⟩ := e
    by_cases hx : name = x
    · subst hx
      simp only [setChild, if_pos rfl, hasName]
      cases hname : decide (name = y) <;> simp_all
    · simp only [setChild, if_neg hx, hasName, ih]
      cases hname : decide (name = y) <;> simp_all

theorem wfChildren_setChild {cs : List (String × Node)} {n : Node} (x : String)
    (hwf : wfChildren cs = true) (hn : wfNode n = true) :
    wfChildren (setChild cs x n) = true := by
  induction cs with
  | nil =>
    simp only [setChild, wfChildren, hasName, Bool.not_false, Bool.true_and, Bool.and_true]
    exact hn
  | cons e rest ih =>
    obtain ⟨name, cn⟩ := e
    simp only [wfChildren, Bool.and_eq_true] at hwf
    obtain ⟨⟨h1, h2⟩, h3⟩ := hwf
    by_cases hx : name = x
    · subst hx
      simp only [setChild, if_pos rfl, wfChildren, Bool.and_eq_true]
      exact ⟨⟨h1, hn⟩, h3⟩
    · simp only [setChild, if_neg hx, wfChildren, Bool.and_eq_true]
      refine ⟨⟨?_, h2⟩, ih h3⟩
      rw [hasName_setChild]
      have h1b : hasName rest name = false := by simpa using h1
      have hx2 : ¬ (x = name) := fun hh => hx hh.symm
      simp [h1b, hx2]

theorem writeFile_spec (d : FileData) (p : List String) :
    ∀ (x : String) (root : Node) (cs : List (String × Node)),
      root.lookup p = some (.dir cs) →
      (∀ ds, findChild cs x ≠ some (.dir ds)) →
      ∃ r2, root.writeFile p x d = some r2 ∧
        r2.lookup (p ++ [x]) = some (.file d) ∧
        (∀ q, startsWith (p ++ [x]) q = false → startsWith q (p ++ [x]) = false →
          r2.lookup q = root.lookup q) ∧
        (∀ q, startsWith (p ++ [x]) q = true → q ≠ p ++ [x] → r2.lookup q = none) ∧
        (∀ q cs0, startsWith q (p ++ [x]) = true → q ≠ p ++ [x] →
          root.lookup q = some (.dir cs0) → ∃ cs1, r2.lookup q = some (.dir cs1)) ∧
        (wfNode root = true → wfNode r2 = true) := by
  induction p with
  | nil =>
    intro x root cs hl hnd
    rw [lookup_nil] at hl
    injection hl with hl
    subst hl
    have hwrite : Node.writeFile (.dir cs) [] x d =
        some (.dir (setChild cs x (.file d))) := by
      rw [Node.writeFile]
      cases hf : findChild cs x with
      | none => rfl
      | some c =>
        cases c with
        | file fd => rfl
        | dir ds => exact absurd hf (hnd ds)
    refine ⟨.dir (setChild cs x (.file d)), hwrite, ?_, ?_, ?_, ?_, ?_⟩
    · simp [Node.lookup, findChild_setChild]
    · intro q h1 h2
      cases q with
      | nil => simp [startsWith] at h2
      | cons z q2 =>
        simp only [List.nil_append, startsWith, Bool.and_eq_false_iff,
          beq_eq_false_iff_ne, ne_eq] at h1
        have hzx : ¬ (z = x) := by
          rcases h1 with h1 | h1
          · exact fun hh => h1 hh.symm
          · cases q2 with
            | nil => simp [startsWith] at h1
            | cons w q3 => simp [startsWith] at h1
        simp [Node.lookup, findChild_setChild, hzx]
    · intro q h1 h2
      cases q with
      | nil => simp [startsWith] at h1
      | cons z q2 =>
        simp only [List.nil_append, startsWith, Bool.and_eq_true, beq_iff_eq] at h1
        obtain ⟨hz, hq2⟩ := h1
        subst hz
        cases q2 with
        | nil => exact absurd rfl h2
        | cons w q3 => simp [Node.lookup, findChild_setChild]
    · intro q cs0 h1 h2 h3
      cases q with
      | nil =>
        exact ⟨setChild cs x (.file d), by rw [lookup_nil]⟩
      | cons z q2 =>
        simp only [List.nil_append, startsWith] at h1
        cases q2 with
        | nil =>
          simp only [Bool.and_eq_true, beq_iff_eq] at h1
          exact absurd (by simp [h1.1]) h2
        | cons w q3 => simp [startsWith] at h1
    · intro hwf
      exact wfChildren_setChild x hwf rfl
  | cons y p2 ih =>
    intro x root cs hl hnd
    cases root with
    | file fd => simp [Node.lookup] at hl
    | dir cs0 =>
      simp only [Node.lookup] at hl
      cases hf : findChild cs0 y with
      | none => rw [hf] at hl; exact absurd hl (by simp)
      | some c =>
        rw [hf] at hl
        have hc : c.lookup p2 = some (.dir cs) := hl
        obtain ⟨c2, hw, hW1, hW2, hW3, hW4, hW5⟩ := ih x c cs hc hnd
        have hwrite : Node.writeFile (.dir cs0) (y :: p2) x d =
            some (.dir (setChild cs0 y c2)) := by
          rw [Node.writeFile, hf]
          simp [hw]
        refine ⟨.dir (setChild cs0 y c2), hwrite, ?_, ?_, ?_, ?_, ?_⟩
        · simp only [List.cons_append, Node.lookup, findChild_setChild, if_pos rfl]
          exact hW1
        · intro q h1 h2
          cases q with
          | nil => simp [startsWith] at h2
          | cons z q2 =>
            by_cases hz : z = y
            · subst hz
              simp only [List.cons_append, startsWith, beq_self_eq_true,
                Bool.true_and] at h1 h2
              simp only [Node.lookup, findChild_setChild, if_pos rfl, hf]
              exact hW2 q2 h1 h2
            · have hz2 : ¬ (z = y) := hz
              simp only [Node.lookup, findChild_setChild, if_neg hz2]
        · intro q h1 h2
          cases q with
          | nil => simp [startsWith] at h1
          | cons z q2 =>
            simp only [List.cons_append, startsWith, Bool.and_eq_true,
              beq_iff_eq] at h1
            obtain ⟨hz, hq2⟩ := h1
            subst hz
            have hq2ne : q2 ≠ p2 ++ [x] := by
              intro hh; exact h2 (by simp [hh])
            simp only [Node.lookup, findChild_setChild, if_pos rfl]
            exact hW3 q2 hq2 hq2ne
        · intro q cs1 h1 h2 h3
          cases q with
          | nil =>
            exact ⟨setChild cs0 y c2, by rw [lookup_nil]⟩
          | cons z q2 =>
            simp only [List.cons_append, startsWith, Bool.and_eq_true,
              beq_iff_eq] at h1
            obtain ⟨hz, hq2⟩ := h1
            subst hz
            have hq2ne : q2 ≠ p2 ++ [x] := by
              intro hh; exact h2 (by simp [hh])
            simp only [Node.lookup, hf] at h3
            have h3c : c.lookup q2 = some (.dir cs1) := h3
            obtain ⟨cs2, hcs2⟩ := hW4 q2 cs1 hq2 hq2ne h3c
            refine ⟨cs2, ?_⟩
            simp only [Node.lookup, findChild_setChild, if_pos rfl]
            exact hcs2
        · intro hwf
          have hwfc : wfNode c = true := wfChildren_findChild hwf hf
          exact wfChildren_setChild y hwf (hW5 hwfc)

theorem makedirs_spec (p : List String) :
    ∀ (x : String) (root : Node) (cs : List (String × Node)),
      root.lookup p = some (.dir cs) →
      findChild cs x = none →
      ∃ r2, root.makedirs (p ++ [x]) = some r2 ∧
        r2.lookup (p ++ [x]) = some (.dir []) ∧
        (∀ q, startsWith (p ++ [x]) q = false → startsWith q (p ++ [x]) = false →
          r2.lookup q = root.lookup q) ∧
        (∀ q, startsWith (p ++ [x]) q = true → q ≠ p ++ [x] → r2.lookup q = none) ∧
        (∀ q cs0, startsWith q (p ++ [x]) = true → q ≠ p ++ [x] →
          root.lookup q = some (.dir cs0) → ∃ cs1, r2.lookup q = some (.dir cs1)) ∧
        (wfNode root = true → wfNode r2 = true) := by
  induction p with
  | nil =>
    intro x root cs hl hnd
    rw [lookup_nil] at hl
    injection hl with hl
    subst hl
    have hmk : Node.makedirs (.dir cs) [x] = some (.dir (setChild cs x (.dir []))) := by
      rw [Node.makedirs, hnd]
      rfl
    refine ⟨.dir (setChild cs x (.dir [])), hmk, ?_, ?_, ?_, ?_, ?_⟩
    · simp [Node.lookup, findChild_setChild]
    · intro q h1 h2
      cases q with
      | nil => simp [startsWith] at h2
      | cons z q2 =>
        simp only [List.nil_append, startsWith, Bool.and_eq_false_iff,
          beq_eq_false_iff_ne, ne_eq] at h1
        have hzx : ¬ (z = x) := by
          rcases h1 with h1 | h1
          · exact fun hh => h1 hh.symm
          · cases q2 with
            | nil => simp [startsWith] at h1
            | cons w q3 => simp [startsWith] at h1
        simp [Node.lookup, findChild_setChild, hzx]
    · intro q h1 h2
      cases q with
      | nil => simp [startsWith] at h1
      | cons z q2 =>
        simp only [List.nil_append, startsWith, Bool.and_eq_true, beq_iff_eq] at h1
        obtain ⟨hz, hq2⟩ := h1
        subst hz
        cases q2 with
        | nil => exact absurd rfl h2
        | cons w q3 => simp [Node.lookup, findChild_setChild, findChild]
    · intro q cs0 h1 h2 h3
      cases q with
      | nil =>
        exact ⟨setChild cs x (.dir []), by rw [lookup_nil]⟩
      | cons z q2 =>
        simp only [List.nil_append, startsWith] at h1
        cases q2 with
        | nil =>
          simp only [Bool.and_eq_true, beq_iff_eq] at h1
          exact absurd (by simp [h1.1]) h2
        | cons w q3 => simp [startsWith] at h1
    · intro hwf
      exact wfChildren_setChild x hwf rfl
  | cons y p2 ih =>
    intro x root cs hl hnd
    cases root with
    | file fd => simp [Node.lookup] at hl
    | dir cs0 =>
      simp only [Node.lookup] at hl
      cases hf : findChild cs0 y with
      | none => rw [hf] at hl; exact absurd hl (by simp)
      | some c =>
        rw [hf] at hl
        have hc : c.lookup p2 = some (.dir cs) := hl
        obtain ⟨c2, hw, hW1, hW2, hW3, hW4, hW5⟩ := ih x c cs hc hnd
        have hmk : Node.makedirs (.dir cs0) (y :: (p2 ++ [x])) =
            some (.dir (setChild cs0 y c2)) := by
          rw [Node.makedirs, hf]
          simp [hw]
        refine ⟨.dir (setChild cs0 y c2), hmk, ?_, ?_, ?_, ?_, ?_⟩
        · simp only [List.cons_append, Node.lookup, findChild_setChild, if_pos rfl]
          exact hW1
        · intro q h1 h2
          cases q with
          | nil => simp [startsWith] at h2
          | cons z q2 =>
            by_cases hz : z = y
            · subst hz
              simp only [List.cons_append, startsWith, beq_self_eq_true,
                Bool.true_and] at h1 h2
              simp only [Node.lookup, findChild_setChild, if_pos rfl, hf]
              exact hW2 q2 h1 h2
            · have hz2 : ¬ (z = y) := hz
              simp only [Node.lookup, findChild_setChild, if_neg hz2]
        · intro q h1 h2
          cases q with
          | nil => simp [startsWith] at h1
          | cons z q2 =>
            simp only [List.cons_append, startsWith, Bool.and_eq_true,
              beq_iff_eq] at h1
            obtain ⟨hz, hq2⟩ := h1
            subst hz
            have hq2ne : q2 ≠ p2 ++ [x] := by
              intro hh; exact h2 (by simp [hh])
            simp only [Node.lookup, findChild_setChild, if_pos rfl]
            exact hW3 q2 hq2 hq2ne
        · intro q cs1 h1 h2 h3
          cases q with
          | nil =>
            exact ⟨setChild cs0 y c2, by rw [lookup_nil]⟩
          | cons z q2 =>
            simp only [List.cons_append, startsWith, Bool.and_eq_true,
              beq_iff_eq] at h1
            obtain ⟨hz, hq2⟩ := h1
            subst hz
            have hq2ne : q2 ≠ p2 ++ [x] := by
              intro hh; exact h2 (by simp [hh])
            simp only [Node.lookup, hf] at h3
            have h3c : c.lookup q2 = some (.dir cs1) := h3
            obtain ⟨cs2, hcs2⟩ := hW4 q2 cs1 hq2 hq2ne h3c
            refine ⟨cs2, ?_⟩
            simp only [Node.lookup, findChild_setChild, if_pos rfl]
            exact hcs2
        · intro hwf
          have hwfc : wfNode c = true := wfChildren_findChild hwf hf
          exact wfChildren_setChild y hwf (hW5 hwfc)

theorem countFilesIn_eq_totalFiles (cs : List (String × Node)) :
    countFilesIn cs = totalFiles cs := by
  induction cs using countFilesIn.induct with
  | case1 => simp [countFilesIn, totalFiles]
  | case2 _ _ rest ih => simp [countFilesIn, totalFiles, ih]
  | case3 _ ds rest ih1 ih2 => simp [countFilesIn, totalFiles, ih1, ih2]

theorem countSubdirsIn_eq_totalSubfolders (cs : List (String × Node)) :
    countSubdirsIn cs = totalSubfolders cs := by
  induction cs using countSubdirsIn.induct with
  | case1 => simp [countSubdirsIn, totalSubfolders]
  | case2 _ _ rest ih => simp [countSubdirsIn, totalSubfolders, ih]
  | case3 _ ds rest ih1 ih2 => simp [countSubdirsIn, totalSubfolders, ih1, ih2]

theorem copy2_over_file {replica : Node} {p : List String} {name : String} {rd : FileData}
    (d : FileData) (hd : d.readable = true)
    (h : replica.lookup (p ++ [name]) = some (.file rd)) :
    ∃ r2, replica.copy2 p name d = some r2 := by
  obtain ⟨cs, hp, hfc⟩ := lookup_parent_dir h
  have hnd : ∀ ds, findChild cs name ≠ some (.dir ds) := by
    intro ds hds
    rw [hfc] at hds
    simp at hds
  obtain ⟨r2, hw, _⟩ := writeFile_spec d p name replica cs hp hnd
  refine ⟨r2, ?_⟩
  rw [Node.copy2, if_pos hd, h]
  exact hw

/-! Claim C2: the per-file update decision. -/

/-- C2: for a file present at the same relative path in both trees, the
forward pass re-copies it exactly when the modification times differ or
the content digests differ; equal time and equal digest mean the file is
left alone (tree, counters and log untouched). Digest comparison is
modelled on the byte content, and both files must be readable for the
digests to be computable at all. -/
theorem C2_update_iff_mtime_or_digest (replica : Node) (p : List String) (name : String)
    (d rd : FileData) (ch : Changes)
    (hrep : replica.lookup (p ++ [name]) = some (.file rd))
    (hdr : d.readable = true) (hrr : rd.readable = true) :
    ∃ r2 c2 evs, syncFile replica p name d ch = .ok (r2, c2, evs) ∧
      ((Ev.updatedFile (p ++ [name]) ∈ evs) ↔
        (d.mtime ≠ rd.mtime ∨ d.content ≠ rd.content)) ∧
      ((d.mtime = rd.mtime ∧ d.content = rd.content) → (r2, c2, evs) = (replica, ch, [])) := by
  obtain ⟨r2, hcopy⟩ := copy2_over_file d hdr hrep
  by_cases hm : d.mtime = rd.mtime
  · by_cases hc : d.content = rd.content
    · refine ⟨replica, ch, [], ?_, ?_, ?_⟩
      · simp [syncFile, hrep, Node.getmtime, hm, calculate_sha1, sha1OfNode, hdr, hrr, hc]
      · simp [hm, hc]
      · intro _; rfl
    · refine ⟨r2, (ch.1 + 1, ch.2), [Ev.updatedFile (p ++ [name])], ?_, ?_, ?_⟩
      · simp [syncFile, hrep, Node.getmtime, hm, calculate_sha1, sha1OfNode, hdr, hrr, hc,
          copy_or_update_file, hcopy]
      · simp [hc]
      · intro hcc; exact absurd hcc.2 hc
  · refine ⟨r2, (ch.1 + 1, ch.2), [Ev.updatedFile (p ++ [name])], ?_, ?_, ?_⟩
    · simp [syncFile, hrep, Node.getmtime, hm, copy_or_update_file, hcopy]
    · simp [hm]
    · intro hcc; exact absurd hcc.1 hm

/-- C2 witness: a replica file with the same modification time as its
source counterpart but different bytes is updated. -/
theorem C2_update_iff_mtime_or_digest_witness :
    ∃ r2 c2 evs,
      syncFile (Node.dir [("a", Node.file ⟨[1], 5, true⟩)]) [] "a" ⟨[2], 5, true⟩ (0, 0) =
        .ok (r2, c2, evs) ∧ Ev.updatedFile ["a"] ∈ evs := by
  obtain ⟨r2, c2, evs, h1, h2, _⟩ :=
    C2_update_iff_mtime_or_digest (Node.dir [("a", Node.file ⟨[1], 5, true⟩)]) [] "a"
      ⟨[2], 5, true⟩ ⟨[1], 5, true⟩ (0, 0) rfl rfl rfl
  refine ⟨r2, c2, evs, h1, ?_⟩
  have := h2.mpr (Or.inr (by decide))
  simpa using this

theorem lookup_dir_head (x : String) (n : Node) (cs : List (String × Node)) (q : List String) :
    (Node.dir ((x, n) :: cs)).lookup (x :: q) = n.lookup q := by
  simp [Node.lookup, findChild]

theorem lookup_dir_cons_ne {x y : String} (h : ¬ (y = x)) (n : Node)
    (cs : List (String × Node)) (q : List String) :
    (Node.dir ((y, n) :: cs)).lookup (x :: q) = (Node.dir cs).lookup (x :: q) := by
  simp [Node.lookup, findChild, h]

theorem lookup_isSome_extend_false {source : Node} {r : List String} (q : List String)
    (h : (source.lookup r).isSome = false) : (source.lookup (r ++ q)).isSome = false := by
  rw [lookup_append]
  cases hr : source.lookup r with
  | none => simp
  | some m => rw [hr] at h; simp at h

theorem revDir_fst (source : Node) (env : FsEnv) (p : List String)
    (cs : List (String × Node)) (ch : Changes) :
    ∃ ch2 c3 e3, revDir source env p cs ch = ((revDescend source env p cs ch2).1, c3, e3) := by
  rw [revDir]
  exact ⟨_, _, _, rfl⟩

theorem revDescend_keep_aux :
    ∀ (k : Nat) (cs : List (String × Node)), sizeOf cs ≤ k →
      ∀ (source : Node) (p : List String) (ch : Changes) (q : List String),
        (source.lookup p).isSome = true →
        ((Node.dir (revDescend source allOkEnv p cs ch).1).lookup q).isSome =
          (((Node.dir cs).lookup q).isSome && (source.lookup (p ++ q)).isSome) := by
  intro k
  induction k with
  | zero =>
    intro cs hk
    exfalso
    cases cs <;> simp at hk
  | succ k ih =>
    intro cs hk source p ch q hp
    match cs with
    | [] =>
      rw [revDescend]
      cases q with
      | nil => simp [Node.lookup, hp]
      | cons x q2 => simp [Node.lookup, findChild]
    | (name, .file d) :: rest =>
      have hrest : sizeOf rest ≤ k := by
        simp at hk
        omega
      cases hs : source.lookup (p ++ [name]) with
      | none =>
        have hdel : wasFileDeleted source allOkEnv (p ++ [name]) = true := by
          simp [wasFileDeleted, allOkEnv, hs]
        rw [revDescend]
        simp only [hdel, if_true]
        cases q with
        | nil => simp [Node.lookup, hp]
        | cons x q2 =>
          by_cases hx : name = x
          · subst hx
            have hsf : (source.lookup (p ++ [name])).isSome = false := by simp [hs]
            have hext : (source.lookup (p ++ name :: q2)).isSome = false := by
              rw [List.append_cons]
              exact lookup_isSome_extend_false q2 hsf
            rw [ih rest hrest source p ch (name :: q2) hp, hext]
            simp
          · rw [ih rest hrest source p ch (x :: q2) hp, lookup_dir_cons_ne hx]
      | some m =>
        have hdel : wasFileDeleted source allOkEnv (p ++ [name]) = false := by
          simp [wasFileDeleted, allOkEnv, hs]
        rw [revDescend]
        simp only [hdel, Bool.false_eq_true, if_false]
        cases q with
        | nil => simp [Node.lookup, hp]
        | cons x q2 =>
          by_cases hx : name = x
          · subst hx
            rw [lookup_dir_head, lookup_dir_head]
            cases q2 with
            | nil => simp [Node.lookup, hs]
            | cons w q3 => simp [Node.lookup]
          · rw [lookup_dir_cons_ne hx, lookup_dir_cons_ne hx,
              ih rest hrest source p ch (x :: q2) hp]
    | (name, .dir ds) :: rest =>
      have hsz : sizeOf rest ≤ k ∧ sizeOf ds ≤ k := by
        simp at hk
        omega
      cases hs : source.lookup (p ++ [name]) with
      | none =>
        have hdel : wasDirDeleted source allOkEnv (p ++ [name]) = true := by
          simp [wasDirDeleted, allOkEnv, hs]
        rw [revDescend]
        simp only [hdel, if_true]
        cases q with
        | nil => simp [Node.lookup, hp]
        | cons x q2 =>
          by_cases hx : name = x
          · subst hx
            have hsf : (source.lookup (p ++ [name])).isSome = false := by simp [hs]
            have hext : (source.lookup (p ++ name :: q2)).isSome = false := by
              rw [List.append_cons]
              exact lookup_isSome_extend_false q2 hsf
            rw [ih rest hsz.1 source p ch (name :: q2) hp, hext]
            simp
          · rw [ih rest hsz.1 source p ch (x :: q2) hp, lookup_dir_cons_ne hx]
      | some m =>
        have hdel : wasDirDeleted source allOkEnv (p ++ [name]) = false := by
          simp [wasDirDeleted, allOkEnv, hs]
        rw [revDescend]
        simp only [hdel, Bool.false_eq_true, if_false]
        cases q with
        | nil => simp [Node.lookup, hp]
        | cons x q2 =>
          by_cases hx : name = x
          · subst hx
            rw [lookup_dir_head, lookup_dir_head]
            obtain ⟨chA, chB, evB, heq⟩ :=
              revDir_fst source allOkEnv (p ++ [name]) ds ch
            rw [heq]
            have hps : (source.lookup (p ++ [name])).isSome = true := by simp [hs]
            rw [ih ds hsz.2 source (p ++ [name]) chA q2 hps]
            simp
          · rw [lookup_dir_cons_ne hx, lookup_dir_cons_ne hx,
              ih rest hsz.1 source p _ (x :: q2) hp]

theorem underPath_strip (p q1 q2 : List String) :
    underPath (p ++ q1) (p ++ q2) = underPath q1 q2 := by
  induction p with
  | nil => rfl
  | cons y p2 ih => simp [underPath, ih]

theorem underPath_nil_right (a : List String) : underPath a [] = false := by
  cases a <;> rfl

theorem underPath_cons (a b : String) (as bs : List String) :
    underPath (a :: as) (b :: bs) = (a == b && underPath as bs) := rfl

theorem revDir_events (source : Node) (env : FsEnv) (p : List String)
    (cs : List (String × Node)) (ch : Changes) :
    (revDir source env p cs ch).2.2 =
      (revFiles source env p cs ch).2 ++
      ((revDirs source env p cs (revFiles source env p cs ch).1).2 ++
        (revDescend source env p cs
          (revDirs source env p cs (revFiles source env p cs ch).1).1).2.2) := by
  rw [revDir]
  simp

theorem revFiles_events (source : Node) (env : FsEnv) (p : List String) :
    ∀ (cs : List (String × Node)) (ch : Changes) (ev : Ev),
      ev ∈ (revFiles source env p cs ch).2 →
      (∃ name, evPath ev = p ++ [name]) ∧
        (∀ q nf nd, ev ≠ Ev.deletedFolder q nf nd) := by
  intro cs
  induction cs with
  | nil => intro ch ev h; simp [revFiles] at h
  | cons e rest ih =>
    obtain ⟨name, cn⟩ := e
    intro ch ev h
    cases cn with
    | dir ds => exact ih ch ev h
    | file d =>
      rw [revFiles] at h
      by_cases hmiss : (source.lookup (p ++ [name])).isNone = true
      · simp only [hmiss, if_true] at h
        by_cases hok : env.removeOk (p ++ [name]) = true
        · simp only [hok, if_true] at h
          rcases List.mem_cons.mp h with h | h
          · subst h
            exact ⟨⟨name, rfl⟩, by intro q nf nd hh; cases hh⟩
          · exact ih _ ev h
        · simp only [eq_false_of_ne_true hok, Bool.false_eq_true, if_false] at h
          rcases List.mem_cons.mp h with h | h
          · subst h
            exact ⟨⟨name, rfl⟩, by intro q nf nd hh; cases hh⟩
          · exact ih _ ev h
      · simp only [eq_false_of_ne_true hmiss, Bool.false_eq_true, if_false] at h
        exact ih _ ev h

theorem revDirs_events (source : Node) (env : FsEnv) (p : List String) :
    ∀ (cs : List (String × Node)) (ch : Changes) (ev : Ev),
      ev ∈ (revDirs source env p cs ch).2 →
      ∃ name, evPath ev = p ++ [name] ∧
        (∀ q nf nd, ev = Ev.deletedFolder q nf nd →
          wasDirDeleted source env (p ++ [name]) = true) := by
  intro cs
  induction cs with
  | nil => intro ch ev h; simp [revDirs] at h
  | cons e rest ih =>
    obtain ⟨name, cn⟩ := e
    intro ch ev h
    cases cn with
    | file d => exact ih ch ev h
    | dir ds =>
      rw [revDirs] at h
      by_cases hmiss : (source.lookup (p ++ [name])).isNone = true
      · simp only [hmiss, if_true, delete_folder] at h
        by_cases hok : env.rmtreeOk (p ++ [name]) = true
        · simp only [hok, if_true] at h
          rcases List.mem_append.mp h with h | h
          · rcases List.mem_singleton.mp h with h
            subst h
            refine ⟨name, rfl, ?_⟩
            intro q nf nd _
            simp [wasDirDeleted, hmiss, hok]
          · exact ih _ ev h
        · simp only [eq_false_of_ne_true hok, Bool.false_eq_true, if_false] at h
          rcases List.mem_append.mp h with h | h
          · rcases List.mem_singleton.mp h with h
            subst h
            exact ⟨name, rfl, by intro q nf nd hh; cases hh⟩
          · exact ih _ ev h
      · simp only [eq_false_of_ne_true hmiss, Bool.false_eq_true, if_false] at h
        exact ih _ ev h

theorem rev_paths_aux :
    ∀ (k : Nat) (cs : List (String × Node)), sizeOf cs ≤ k →
      (∀ (source : Node) (env : FsEnv) (p : List String) (ch : Changes) (ev : Ev),
        wfChildren cs = true →
        ev ∈ (revDescend source env p cs ch).2.2 →
        ∃ nm tail, evPath ev = p ++ nm :: tail ∧ hasName cs nm = true ∧
          wasDirDeleted source env (p ++ [nm]) = false) ∧
      (∀ (source : Node) (env : FsEnv) (p : List String) (ch : Changes) (ev : Ev),
        wfChildren cs = true →
        ev ∈ (revDir source env p cs ch).2.2 →
        ∃ nm tail, evPath ev = p ++ nm :: tail) := by
  intro k
  induction k with
  | zero => intro cs hk; exfalso; cases cs <;> simp at hk
  | succ k ih =>
    intro cs hk
    have hD1 : ∀ (source : Node) (env : FsEnv) (p : List String) (ch : Changes) (ev : Ev),
        wfChildren cs = true →
        ev ∈ (revDescend source env p cs ch).2.2 →
        ∃ nm tail, evPath ev = p ++ nm :: tail ∧ hasName cs nm = true ∧
          wasDirDeleted source env (p ++ [nm]) = false := by
      intro source env p ch ev hwf hev
      match cs, hk, hwf with
      | [], hk, hwf =>
        rw [revDescend] at hev
        simp at hev
      | (name, .file d) :: rest, hk, hwf =>
        have hrest : sizeOf rest ≤ k := by simp at hk; omega
        simp only [wfChildren, Bool.and_eq_true] at hwf
        rw [revDescend] at hev
        have hev2 : ev ∈ (revDescend source env p rest ch).2.2 := by
          by_cases hc : wasFileDeleted source env (p ++ [name]) = true
          · simpa only [hc, if_true] using hev
          · simpa only [eq_false_of_ne_true hc, Bool.false_eq_true, if_false] using hev
        obtain ⟨nm, tail, h1, h2, h3⟩ := (ih rest hrest).1 source env p ch ev hwf.2 hev2
        exact ⟨nm, tail, h1, by simp [hasName, h2], h3⟩
      | (name, .dir ds) :: rest, hk, hwf =>
        have hsz : sizeOf rest ≤ k ∧ sizeOf ds ≤ k := by simp at hk; omega
        simp only [wfChildren, Bool.and_eq_true] at hwf
        rw [revDescend] at hev
        by_cases hc : wasDirDeleted source env (p ++ [name]) = true
        · simp only [hc, if_true] at hev
          obtain ⟨nm, tail, h1, h2, h3⟩ :=
            (ih rest hsz.1).1 source env p ch ev hwf.2 hev
          exact ⟨nm, tail, h1, by simp [hasName, h2], h3⟩
        · simp only [eq_false_of_ne_true hc, Bool.false_eq_true, if_false] at hev
          rcases List.mem_append.mp hev with h | h
          · obtain ⟨z, tail, hz⟩ :=
              (ih ds hsz.2).2 source env (p ++ [name]) ch ev hwf.1.2 h
            refine ⟨name, z :: tail, ?_, by simp [hasName], eq_false_of_ne_true hc⟩
            simpa using hz
          · obtain ⟨nm, tail, h1, h2, h3⟩ :=
              (ih rest hsz.1).1 source env p _ ev hwf.2 h
            exact ⟨nm, tail, h1, by simp [hasName, h2], h3⟩
    refine ⟨hD1, ?_⟩
    intro source env p ch ev hwf hev
    rw [revDir_events] at hev
    rcases List.mem_append.mp hev with h | h
    · obtain ⟨nm, hnm⟩ := (revFiles_events source env p cs ch ev h).1
      exact ⟨nm, [], hnm⟩
    · rcases List.mem_append.mp h with h | h
      · obtain ⟨nm, hnm, _⟩ := revDirs_events source env p cs _ ev h
        exact ⟨nm, [], hnm⟩
      · obtain ⟨nm, tail, hnm, _, _⟩ := hD1 source env p _ ev hwf h
        exact ⟨nm, tail, hnm⟩

theorem rev_noretarget_aux :
    ∀ (k : Nat) (cs : List (String × Node)), sizeOf cs ≤ k →
      (∀ (source : Node) (env : FsEnv) (p : List String) (ch : Changes)
        (q : List String) (nf nd : Nat) (ev : Ev),
        wfChildren cs = true →
        Ev.deletedFolder q nf nd ∈ (revDescend source env p cs ch).2.2 →
        ev ∈ (revDescend source env p cs ch).2.2 →
        underPath q (evPath ev) = false) ∧
      (∀ (source : Node) (env : FsEnv) (p : List String) (ch : Changes)
        (q : List String) (nf nd : Nat) (ev : Ev),
        wfChildren cs = true →
        Ev.deletedFolder q nf nd ∈ (revDir source env p cs ch).2.2 →
        ev ∈ (revDir source env p cs ch).2.2 →
        underPath q (evPath ev) = false) := by
  intro k
  induction k with
  | zero => intro cs hk; exfalso; cases cs <;> simp at hk
  | succ k ih =>
    intro cs hk
    have hD2 : ∀ (source : Node) (env : FsEnv) (p : List String) (ch : Changes)
        (q : List String) (nf nd : Nat) (ev : Ev),
        wfChildren cs = true →
        Ev.deletedFolder q nf nd ∈ (revDescend source env p cs ch).2.2 →
        ev ∈ (revDescend source env p cs ch).2.2 →
        underPath q (evPath ev) = false := by
      intro source env p ch q nf nd ev hwf hq hev
      match cs, hk, hwf with
      | [], hk, hwf =>
        rw [revDescend] at hq
        simp at hq
      | (name, .file d) :: rest, hk, hwf =>
        have hrest : sizeOf rest ≤ k := by simp at hk; omega
        simp only [wfChildren, Bool.and_eq_true] at hwf
        rw [revDescend] at hq hev
        by_cases hc : wasFileDeleted source env (p ++ [name]) = true
        · simp only [hc, if_true] at hq hev
          exact (ih rest hrest).1 source env p ch q nf nd ev hwf.2 hq hev
        · simp only [eq_false_of_ne_true hc, Bool.false_eq_true, if_false] at hq hev
          exact (ih rest hrest).1 source env p ch q nf nd ev hwf.2 hq hev
      | (name, .dir ds) :: rest, hk, hwf =>
        have hsz : sizeOf rest ≤ k ∧ sizeOf ds ≤ k := by simp at hk; omega
        simp only [wfChildren, Bool.and_eq_true] at hwf
        rw [revDescend] at hq hev
        by_cases hc : wasDirDeleted source env (p ++ [name]) = true
        · simp only [hc, if_true] at hq hev
          exact (ih rest hsz.1).1 source env p ch q nf nd ev hwf.2 hq hev
        · simp only [eq_false_of_ne_true hc, Bool.false_eq_true, if_false] at hq hev
          have hwfds : wfChildren ds = true := hwf.1.2
          have hwfrest : wfChildren rest = true := hwf.2
          have hnodup : hasName rest name = false := by simpa using hwf.1.1
          rcases List.mem_append.mp hq with hq1 | hq1 <;>
            rcases List.mem_append.mp hev with hev1 | hev1
          · -- both in the subtree of the surviving directory
            exact (ih ds hsz.2).2 source env (p ++ [name]) ch q nf nd ev hwfds hq1 hev1
          · -- deletedFolder in the subtree, event later in the level
            obtain ⟨z, tq, hzq⟩ :=
              (rev_paths_aux (sizeOf ds) ds (Nat.le_refl _)).2 source env (p ++ [name]) ch
                (Ev.deletedFolder q nf nd) hwfds hq1
            obtain ⟨nm2, tail2, hpath2, hname2, _⟩ :=
              (rev_paths_aux (sizeOf rest) rest (Nat.le_refl _)).1 source env p _ ev
                hwfrest hev1
            have hne : ¬ (name = nm2) := by
              intro hh
              rw [hh] at hnodup
              rw [hname2] at hnodup
              cases hnodup
            have hq2 : q = p ++ name :: z :: tq := by simpa using hzq
            rw [hq2, hpath2, underPath_strip, underPath_cons]
            simp [hne]
          · -- deletedFolder later in the level, event in the subtree
            obtain ⟨nm2, tail2, hpath2, hname2, _⟩ :=
              (rev_paths_aux (sizeOf rest) rest (Nat.le_refl _)).1 source env p _
                (Ev.deletedFolder q nf nd) hwfrest hq1
            obtain ⟨z, tev, hzev⟩ :=
              (rev_paths_aux (sizeOf ds) ds (Nat.le_refl _)).2 source env (p ++ [name]) ch
                ev hwfds hev1
            have hne : ¬ (nm2 = name) := by
              intro hh
              rw [hh] at hname2
              rw [hname2] at hnodup
              cases hnodup
            have hq2 : q = p ++ nm2 :: tail2 := hpath2
            have hev2 : evPath ev = p ++ name :: z :: tev := by simpa using hzev
            rw [hq2, hev2, underPath_strip, underPath_cons]
            simp [hne]
          · exact (ih rest hsz.1).1 source env p _ q nf nd ev hwfrest hq1 hev1
    refine ⟨hD2, ?_⟩
    intro source env p ch q nf nd ev hwf hq hev
    rw [revDir_events] at hq hev
    rcases List.mem_append.mp hq with hq1 | hq1
    · exact absurd rfl ((revFiles_events source env p cs ch _ hq1).2 q nf nd)
    · rcases List.mem_append.mp hq1 with hq2 | hq2
      · -- the deleted folder is one of this level
        obtain ⟨nm, hnm, hfact⟩ := revDirs_events source env p cs _ _ hq2
        have hqe : q = p ++ [nm] := hnm
        have hdel : wasDirDeleted source env (p ++ [nm]) = true := hfact q nf nd rfl
        rcases List.mem_append.mp hev with hev1 | hev1
        · obtain ⟨nm3, hnm3⟩ := (revFiles_events source env p cs ch ev hev1).1
          rw [hqe, hnm3, underPath_strip, underPath_cons]
          simp [underPath]
        · rcases List.mem_append.mp hev1 with hev2 | hev2
          · obtain ⟨nm3, hnm3, _⟩ := revDirs_events source env p cs _ ev hev2
            rw [hqe, hnm3, underPath_strip, underPath_cons]
            simp [underPath]
          · obtain ⟨nm2, tail2, hpath2, _, hsurv⟩ :=
              (rev_paths_aux (sizeOf cs) cs (Nat.le_refl _)).1 source env p _ ev hwf hev2
            by_cases hnm2 : nm = nm2
            · rw [hnm2] at hdel
              rw [hdel] at hsurv
              cases hsurv
            · rw [hqe, hpath2, underPath_strip, underPath_cons]
              simp [hnm2]
      · -- the deleted folder is deep inside a surviving subtree
        obtain ⟨c, tq, hcq, _, _⟩ :=
          (rev_paths_aux (sizeOf cs) cs (Nat.le_refl _)).1 source env p _
            (Ev.deletedFolder q nf nd) hwf hq2
        have hqe : q = p ++ c :: tq := hcq
        rcases List.mem_append.mp hev with hev1 | hev1
        · obtain ⟨nm3, hnm3⟩ := (revFiles_events source env p cs ch ev hev1).1
          rw [hqe, hnm3, underPath_strip, underPath_cons]
          cases htq : tq <;> simp [underPath, underPath_nil_right]
        · rcases List.mem_append.mp hev1 with hev2 | hev2
          · obtain ⟨nm3, hnm3, _⟩ := revDirs_events source env p cs _ ev hev2
            rw [hqe, hnm3, underPath_strip, underPath_cons]
            cases htq : tq <;> simp [underPath, underPath_nil_right]
          · exact hD2 source env p _ q nf nd ev hwf hq2 hev2

theorem fileDataAt_eq_some {r : Node} {q : List String} {d : FileData}
    (h : fileDataAt r q = some d) : r.lookup q = some (.file d) := by
  simp only [fileDataAt] at h
  cases hl : r.lookup q with
  | none =>
    rw [hl] at h
    cases h
  | some nn =>
    cases nn with
    | file d2 =>
      rw [hl] at h
      have h2 : (some d2 : Option FileData) = some d := h
      injection h2 with h2
      rw [h2]
    | dir ds =>
      rw [hl] at h
      have h2 : (none : Option FileData) = some d := h
      cases h2

theorem isDirAt_lookup {r : Node} {q : List String} (h : isDirAt r q = true) :
    ∃ ds, r.lookup q = some (.dir ds) := by
  simp only [isDirAt] at h
  cases hl : r.lookup q with
  | none =>
    rw [hl] at h
    cases h
  | some nn =>
    cases nn with
    | file d2 =>
      rw [hl] at h
      have h2 : false = true := h
      cases h2
    | dir ds => exact ⟨ds, rfl⟩

theorem syncFile_noop {replica : Node} {p : List String} {name : String} {d : FileData}
    (h : replica.lookup (p ++ [name]) = some (.file d)) (hr : d.readable = true)
    (ch : Changes) : syncFile replica p name d ch = .ok (replica, ch, []) := by
  simp [syncFile, h, Node.getmtime, calculate_sha1, sha1OfNode, hr]

theorem fwdFiles_noop (p : List String) :
    ∀ (cs : List (String × Node)) (replica : Node) (ch : Changes),
      mirroredChildren replica p cs = true →
      fwdFiles p cs replica ch = .ok (replica, ch, []) := by
  intro cs
  induction cs with
  | nil => intro replica ch _; rw [fwdFiles]
  | cons e rest ih =>
    obtain ⟨name, cn⟩ := e
    intro replica ch hm
    cases cn with
    | dir ds =>
      simp only [mirroredChildren, Bool.and_eq_true] at hm
      rw [fwdFiles]
      exact ih replica ch hm.2
    | file d =>
      simp only [mirroredChildren, Bool.and_eq_true, decide_eq_true_eq] at hm
      obtain ⟨⟨hfd, hrd⟩, hrest⟩ := hm
      have hlook := fileDataAt_eq_some hfd
      rw [fwdFiles]
      simp [syncFile_noop hlook hrd, ih replica ch hrest]

theorem fwd_noop_aux :
    ∀ (k : Nat) (cs : List (String × Node)), sizeOf cs ≤ k →
      (∀ (replica : Node) (p : List String) (ch : Changes),
        mirroredChildren replica p cs = true →
        fwdSubdirs p cs replica ch = .ok (replica, ch, [])) ∧
      (∀ (replica : Node) (p : List String) (ch : Changes),
        (replica.lookup p).isSome = true →
        mirroredChildren replica p cs = true →
        fwdDir p cs replica ch = .ok (replica, ch, [])) := by
  intro k
  induction k with
  | zero => intro cs hk; exfalso; cases cs <;> simp at hk
  | succ k ih =>
    intro cs hk
    have hSub : ∀ (replica : Node) (p : List String) (ch : Changes),
        mirroredChildren replica p cs = true →
        fwdSubdirs p cs replica ch = .ok (replica, ch, []) := by
      intro replica p ch hm
      match cs, hk, hm with
      | [], hk, hm => rw [fwdSubdirs]
      | (name, .file d) :: rest, hk, hm =>
        have hrest : sizeOf rest ≤ k := by simp at hk; omega
        simp only [mirroredChildren, Bool.and_eq_true] at hm
        rw [fwdSubdirs]
        exact (ih rest hrest).1 replica p ch hm.2
      | (name, .dir ds) :: rest, hk, hm =>
        have hsz : sizeOf rest ≤ k ∧ sizeOf ds ≤ k := by simp at hk; omega
        simp only [mirroredChildren, Bool.and_eq_true] at hm
        obtain ⟨⟨hdir, hds⟩, hrest⟩ := hm
        obtain ⟨ds2, hds2⟩ := isDirAt_lookup hdir
        have hsome : (replica.lookup (p ++ [name])).isSome = true := by simp [hds2]
        have h1 := (ih ds hsz.2).2 replica (p ++ [name]) ch hsome hds
        have h2 := (ih rest hsz.1).1 replica p ch hrest
        rw [fwdSubdirs]
        simp [h1, h2]
    refine ⟨hSub, ?_⟩
    intro replica p ch hp hm
    rw [fwdDir]
    simp only [hp, if_true]
    simp [fwdFiles_noop p cs replica ch hm, hSub replica p ch hm]

theorem revFiles_noop (source : Node) (env : FsEnv) (p : List String) :
    ∀ (cs : List (String × Node)) (ch : Changes),
      coveredChildren source p cs = true →
      revFiles source env p cs ch = (ch, []) := by
  intro cs
  induction cs with
  | nil => intro ch _; rw [revFiles]
  | cons e rest ih =>
    obtain ⟨name, cn⟩ := e
    intro ch hc
    cases cn with
    | dir ds =>
      simp only [coveredChildren, Bool.and_eq_true] at hc
      rw [revFiles]
      exact ih ch hc.2
    | file d =>
      simp only [coveredChildren, Bool.and_eq_true] at hc
      obtain ⟨m, hm⟩ := Option.isSome_iff_exists.mp hc.1
      rw [revFiles]
      simp only [hm, Option.isNone_some, Bool.false_eq_true, if_false]
      exact ih ch hc.2

theorem revDirs_noop (source : Node) (env : FsEnv) (p : List String) :
    ∀ (cs : List (String × Node)) (ch : Changes),
      coveredChildren source p cs = true →
      revDirs source env p cs ch = (ch, []) := by
  intro cs
  induction cs with
  | nil => intro ch _; rw [revDirs]
  | cons e rest ih =>
    obtain ⟨name, cn⟩ := e
    intro ch hc
    cases cn with
    | file d =>
      simp only [coveredChildren, Bool.and_eq_true] at hc
      rw [revDirs]
      exact ih ch hc.2
    | dir ds =>
      simp only [coveredChildren, Bool.and_eq_true] at hc
      obtain ⟨m, hm⟩ := Option.isSome_iff_exists.mp hc.1.1
      rw [revDirs]
      simp only [hm, Option.isNone_some, Bool.false_eq_true, if_false]
      exact ih ch hc.2

theorem rev_noop_aux :
    ∀ (k : Nat) (cs : List (String × Node)), sizeOf cs ≤ k →
      (∀ (source : Node) (env : FsEnv) (p : List String) (ch : Changes),
        coveredChildren source p cs = true →
        revDescend source env p cs ch = (cs, ch, [])) ∧
      (∀ (source : Node) (env : FsEnv) (p : List String) (ch : Changes),
        coveredChildren source p cs = true →
        revDir source env p cs ch = (cs, ch, [])) := by
  intro k
  induction k with
  | zero => intro cs hk; exfalso; cases cs <;> simp at hk
  | succ k ih =>
    intro cs hk
    have hDesc : ∀ (source : Node) (env : FsEnv) (p : List String) (ch : Changes),
        coveredChildren source p cs = true →
        revDescend source env p cs ch = (cs, ch, []) := by
      intro source env p ch hc
      match cs, hk, hc with
      | [], hk, hc => rw [revDescend]
      | (name, .file d) :: rest, hk, hc =>
        have hrest : sizeOf rest ≤ k := by simp at hk; omega
        simp only [coveredChildren, Bool.and_eq_true] at hc
        obtain ⟨m, hm⟩ := Option.isSome_iff_exists.mp hc.1
        have hdel : wasFileDeleted source env (p ++ [name]) = false := by
          simp [wasFileDeleted, hm]
        rw [revDescend]
        simp [hdel, (ih rest hrest).1 source env p ch hc.2]
      | (name, .dir ds) :: rest, hk, hc =>
        have hsz : sizeOf rest ≤ k ∧ sizeOf ds ≤ k := by simp at hk; omega
        simp only [coveredChildren, Bool.and_eq_true] at hc
        obtain ⟨⟨hsome, hds⟩, hrest⟩ := hc
        obtain ⟨m, hm⟩ := Option.isSome_iff_exists.mp hsome
        have hdel : wasDirDeleted source env (p ++ [name]) = false := by
          simp [wasDirDeleted, hm]
        rw [revDescend]
        simp [hdel, (ih ds hsz.2).2 source env (p ++ [name]) ch hds,
          (ih rest hsz.1).1 source env p ch hrest]
    refine ⟨hDesc, ?_⟩
    intro source env p ch hc
    rw [revDir]
    simp [revFiles_noop source env p cs ch hc, revDirs_noop source env p cs ch hc,
      hDesc source env p ch hc]

theorem sw_refl (p : List String) : startsWith p p = true := by
  induction p with
  | nil => rfl
  | cons x xs ih => simp [startsWith, ih]

theorem sw_append (p r : List String) : startsWith p (p ++ r) = true := by
  induction p with
  | nil => rfl
  | cons x xs ih => simp [startsWith, ih]

theorem sw_strip (p a b : List String) :
    startsWith (p ++ a) (p ++ b) = startsWith a b := by
  induction p with
  | nil => rfl
  | cons x xs ih => simp [startsWith, ih]

theorem sw_trans {a b c : List String} (h1 : startsWith a b = true)
    (h2 : startsWith b c = true) : startsWith a c = true := by
  induction a generalizing b c with
  | nil => rfl
  | cons x xs ih =>
    cases b with
    | nil => simp [startsWith] at h1
    | cons y ys =>
      cases c with
      | nil => simp [startsWith] at h2
      | cons z zs =>
        simp only [startsWith, Bool.and_eq_true, beq_iff_eq] at h1 h2 ⊢
        exact ⟨h1.1.trans h2.1, ih h1.2 h2.2⟩

theorem sw_form {p q : List String} (h : startsWith p q = true) :
    ∃ t, q = p ++ t := by
  induction p generalizing q with
  | nil => exact ⟨q, rfl⟩
  | cons x xs ih =>
    cases q with
    | nil => simp [startsWith] at h
    | cons y ys =>
      simp only [startsWith, Bool.and_eq_true, beq_iff_eq] at h
      obtain ⟨t, ht⟩ := ih h.2
      exact ⟨t, by rw [h.1, ht]; rfl⟩

theorem sw_snoc_self_false (p : List String) (x : String) :
    startsWith (p ++ [x]) p = false := by
  have := sw_strip p [x] []
  simpa using this

theorem sw_snoc {q p : List String} {x : String}
    (h : startsWith q (p ++ [x]) = true) :
    startsWith q p = true ∨ q = p ++ [x] := by
  induction p generalizing q with
  | nil =>
    cases q with
    | nil => exact Or.inl rfl
    | cons y ys =>
      simp only [List.nil_append, startsWith, Bool.and_eq_true, beq_iff_eq] at h
      cases ys with
      | nil => exact Or.inr (by rw [h.1]; rfl)
      | cons z zs => simp [startsWith] at h
  | cons a as ih =>
    cases q with
    | nil => exact Or.inl rfl
    | cons y ys =>
      simp only [List.cons_append, startsWith, Bool.and_eq_true, beq_iff_eq] at h
      rcases ih h.2 with h2 | h2
      · exact Or.inl (by simp [startsWith, h.1, h2])
      · exact Or.inr (by rw [h.1, h2]; rfl)

theorem sw_below_none {replica : Node} {p : List String}
    (h : ∀ q, startsWith p q = true → q ≠ p → replica.lookup q = none)
    (t : List String) (ht : t ≠ []) : replica.lookup (p ++ t) = none := by
  apply h
  · exact sw_append p t
  · intro hh
    apply ht
    have : p ++ t = p ++ [] := by simpa using hh
    exact List.append_cancel_left this

theorem lookup_singleton (cs : List (String × Node)) (x : String) :
    (Node.dir cs).lookup [x] = findChild cs x := by
  simp only [Node.lookup]
  cases hf : findChild cs x with
  | none => rfl
  | some c => rfl

theorem findChild_none_of_lookup_none {replica : Node} {p : List String}
    {rcs : List (String × Node)} {x : String}
    (hp : replica.lookup p = some (.dir rcs)) (h : replica.lookup (p ++ [x]) = none) :
    findChild rcs x = none := by
  rw [lookup_append, hp] at h
  rw [← lookup_singleton rcs x]
  exact h

theorem findChild_isSome_hasName {cs : List (String × Node)} {x : String} {c : Node}
    (h : findChild cs x = some c) : hasName cs x = true := by
  induction cs with
  | nil => simp [findChild] at h
  | cons e rest ih =>
    obtain ⟨name, cn⟩ := e
    rw [findChild] at h
    by_cases hx : name = x
    · simp [hasName, hx]
    · rw [if_neg hx] at h
      simp [hasName, ih h]

theorem ne_snoc (p : List String) (x : String) : p ≠ p ++ [x] := by
  intro hh
  have h3 : p ++ ([] : List String) = p ++ [x] := by rw [List.append_nil]; exact hh
  have h4 := List.append_cancel_left h3
  cases h4

theorem fwdFiles_build (p : List String) :
    ∀ (cs : List (String × Node)) (replica : Node) (ch : Changes)
      (rcs : List (String × Node)),
      replica.lookup p = some (.dir rcs) →
      (∀ name, hasName cs name = true → replica.lookup (p ++ [name]) = none) →
      wfChildren cs = true →
      allReadableChildren cs = true →
      ∃ r2 ch2 evs, fwdFiles p cs replica ch = .ok (r2, ch2, evs) ∧
        (∀ name d, findChild cs name = some (.file d) →
          r2.lookup (p ++ [name]) = some (.file d)) ∧
        (∀ q, startsWith q p = false →
          (∀ name d, findChild cs name = some (.file d) →
            startsWith (p ++ [name]) q = false) →
          r2.lookup q = replica.lookup q) ∧
        (∀ q cs0, startsWith q p = true → replica.lookup q = some (.dir cs0) →
          ∃ cs1, r2.lookup q = some (.dir cs1)) ∧
        (wfNode replica = true → wfNode r2 = true) := by
  intro cs
  induction cs with
  | nil =>
    intro replica ch rcs hp h2 hwf hread
    refine ⟨replica, ch, [], by rw [fwdFiles], ?_, ?_, ?_, ?_⟩
    · intro name d h; simp [findChild] at h
    · intro q _ _; rfl
    · intro q cs0 _ h; exact ⟨cs0, h⟩
    · exact fun h => h
  | cons e rest ih =>
    obtain ⟨name0, cn⟩ := e
    intro replica ch rcs hp h2 hwf hread
    simp only [wfChildren, Bool.and_eq_true] at hwf
    obtain ⟨⟨hnodup, hwfc⟩, hwfrest⟩ := hwf
    simp only [allReadableChildren, Bool.and_eq_true] at hread
    obtain ⟨hreadhd, hreadrest⟩ := hread
    have hnodup2 : hasName rest name0 = false := by simpa using hnodup
    cases cn with
    | dir ds =>
      obtain ⟨r2, ch2, evs, hrun, hCa, hCb, hCc, hCw⟩ :=
        ih replica ch rcs hp (fun nm h => h2 nm (by simp [hasName, h])) hwfrest hreadrest
      refine ⟨r2, ch2, evs, ?_, ?_, ?_, ?_, ?_⟩
      · rw [fwdFiles]; exact hrun
      · intro nm d h
        rw [findChild] at h
        by_cases hnm : name0 = nm
        · rw [if_pos hnm] at h; cases h
        · rw [if_neg hnm] at h; exact hCa nm d h
      · intro q hq1 hq2
        apply hCb q hq1
        intro nm d h
        by_cases hnm : name0 = nm
        · subst hnm
          rw [findChild_of_hasName_eq_false hnodup2] at h
          cases h
        · exact hq2 nm d (by rw [findChild, if_neg hnm]; exact h)
      · exact hCc
      · exact hCw
    | file d0 =>
      have hrd0 : d0.readable = true := by simpa [allReadableNode] using hreadhd
      have hlook0 : replica.lookup (p ++ [name0]) = none := h2 name0 (by simp [hasName])
      have hfc0 : findChild rcs name0 = none := findChild_none_of_lookup_none hp hlook0
      obtain ⟨r1, hw, hW1, hW2, hW3, hW4, hW5⟩ :=
        writeFile_spec d0 p name0 replica rcs hp
          (by intro ds hds; rw [hfc0] at hds; cases hds)
      have hsync : syncFile replica p name0 d0 ch =
          .ok (r1, (ch.1 + 1, ch.2), [Ev.copiedFile (p ++ [name0])]) := by
        simp [syncFile, hlook0, copy_or_update_file, Node.copy2, hrd0, hw]
      obtain ⟨rcs1, hp1⟩ :=
        hW4 p rcs (sw_append p [name0]) (ne_snoc p name0) hp
      have h2s : ∀ nm, hasName rest nm = true → r1.lookup (p ++ [nm]) = none := by
        intro nm hmem
        have hne : ¬ (name0 = nm) := by
          intro hh
          rw [hh] at hnodup2
          rw [hmem] at hnodup2
          cases hnodup2
        have hswA : startsWith (p ++ [name0]) (p ++ [nm]) = false := by
          rw [sw_strip p [name0] [nm]]
          simp [startsWith, hne]
        have hne2 : ¬ (nm = name0) := fun hh => hne hh.symm
        have hswB : startsWith (p ++ [nm]) (p ++ [name0]) = false := by
          rw [sw_strip p [nm] [name0]]
          simp [startsWith, hne2]
        rw [hW2 (p ++ [nm]) hswA hswB]
        exact h2 nm (by simp [hasName, hmem])
      obtain ⟨r2, ch2, evs, hrun, hCa, hCb, hCc, hCw⟩ :=
        ih r1 (ch.1 + 1, ch.2) rcs1 hp1 h2s hwfrest hreadrest
      refine ⟨r2, ch2, Ev.copiedFile (p ++ [name0]) :: evs, ?_, ?_, ?_, ?_, ?_⟩
      · rw [fwdFiles]
        simp [hsync, hrun]
      · intro nm d h
        rw [findChild] at h
        by_cases hnm : name0 = nm
        · rw [if_pos hnm] at h
          have hd : d0 = d := by
            injection h with h
            injection h with h
          subst hnm
          subst hd
          rw [hCb (p ++ [name0]) (sw_snoc_self_false p name0) ?_]
          · exact hW1
          · intro nm2 d2 h2f
            have hne : ¬ (name0 = nm2) := by
              intro hh
              rw [← hh] at h2f
              rw [findChild_of_hasName_eq_false hnodup2] at h2f
              cases h2f
            have hne2 : ¬ (nm2 = name0) := fun hh => hne hh.symm
            rw [sw_strip p [nm2] [name0]]
            simp [startsWith, hne2]
        · rw [if_neg hnm] at h
          exact hCa nm d h
      · intro q hq1 hq2
        have hA : startsWith (p ++ [name0]) q = false :=
          hq2 name0 d0 (by rw [findChild]; simp)
        have hB : startsWith q (p ++ [name0]) = false := by
          cases hqq : startsWith q (p ++ [name0]) with
          | false => rfl
          | true =>
            rcases sw_snoc hqq with hc | hc
            · rw [hq1] at hc; cases hc
            · rw [hc] at hA
              rw [sw_refl] at hA
              cases hA
        have hCbr : r2.lookup q = r1.lookup q := by
          apply hCb q hq1
          intro nm d h
          by_cases hnm : name0 = nm
          · subst hnm
            rw [findChild_of_hasName_eq_false hnodup2] at h
            cases h
          · exact hq2 nm d (by rw [findChild, if_neg hnm]; exact h)
        rw [hCbr, hW2 q hA hB]
      · intro q cs0 hq hlq
        have hq2 : startsWith q (p ++ [name0]) = true :=
          sw_trans hq (sw_append p [name0])
        have hqne : q ≠ p ++ [name0] := by
          intro hh
          rw [hh] at hq
          rw [sw_snoc_self_false] at hq
          cases hq
        obtain ⟨cs1, hcs1⟩ := hW4 q cs0 hq2 hqne hlq
        exact hCc q cs1 hq hcs1
      · exact fun h => hCw (hW5 h)

theorem lookup_none_extend {r : Node} {t : List String} (u : List String)
    (h : r.lookup t = none) : r.lookup (t ++ u) = none := by
  rw [lookup_append, h]
  rfl

theorem lookup_below_file {r : Node} {t : List String} {d : FileData}
    (h : r.lookup t = some (.file d)) {u : List String} (hu : u ≠ []) :
    r.lookup (t ++ u) = none := by
  rw [lookup_append, h]
  cases u with
  | nil => exact absurd rfl hu
  | cons w u2 => simp [Node.lookup]

theorem sw_snocext_false (p : List String) (x : String) (q2 : List String) :
    startsWith ((p ++ [x]) ++ q2) p = false := by
  cases hss : startsWith ((p ++ [x]) ++ q2) p with
  | false => rfl
  | true =>
    have h1 := sw_trans (sw_append (p ++ [x]) q2) hss
    rw [sw_snoc_self_false] at h1
    cases h1

theorem sw_snoc_vs_snocext {a b : String} (h : ¬ (a = b)) (p q2 : List String) :
    startsWith (p ++ [a]) ((p ++ [b]) ++ q2) = false := by
  rw [← List.append_cons, sw_strip p [a] (b :: q2)]
  simp [startsWith, h]

theorem sw_to_snoc_false {q p : List String} {x : String}
    (h1 : startsWith q p = false) (h2 : startsWith (p ++ [x]) q = false) :
    startsWith q (p ++ [x]) = false := by
  cases hqq : startsWith q (p ++ [x]) with
  | false => rfl
  | true =>
    rcases sw_snoc hqq with hc | hc
    · rw [h1] at hc; cases hc
    · rw [hc] at h2
      rw [sw_refl] at h2
      cases h2

theorem append_ne_left (p : List String) {t : List String} (ht : t ≠ []) : p ++ t ≠ p := by
  intro hh
  apply ht
  have h3 : p ++ t = p ++ [] := by simpa using hh
  exact List.append_cancel_left h3

theorem fwd_build_aux :
    ∀ (k : Nat) (cs : List (String × Node)), sizeOf cs ≤ k →
      (∀ (replica : Node) (p : List String) (ch : Changes) (rcs : List (String × Node)),
        replica.lookup p = some (.dir rcs) →
        (∀ nm ds, findChild cs nm = some (.dir ds) → replica.lookup (p ++ [nm]) = none) →
        wfChildren cs = true →
        allReadableChildren cs = true →
        wfNode replica = true →
        ∃ r2 ch2 evs, fwdSubdirs p cs replica ch = .ok (r2, ch2, evs) ∧
          (∀ nm ds, findChild cs nm = some (.dir ds) →
            ∀ q, matchFullAt ((Node.dir ds).lookup q) (r2.lookup ((p ++ [nm]) ++ q))) ∧
          (∀ q, startsWith q p = false →
            (∀ nm ds, findChild cs nm = some (.dir ds) →
              startsWith (p ++ [nm]) q = false) →
            r2.lookup q = replica.lookup q) ∧
          (∀ q cs0, startsWith q p = true → replica.lookup q = some (.dir cs0) →
            ∃ cs1, r2.lookup q = some (.dir cs1)) ∧
          wfNode r2 = true) ∧
      (∀ (replica : Node) (p : List String) (ch : Changes),
        ((∃ rcs, replica.lookup p = some (.dir rcs)) ∨
          (replica.lookup p = none ∧
            ∃ pp x pcs, p = pp ++ [x] ∧ replica.lookup pp = some (.dir pcs))) →
        (∀ q, startsWith p q = true → q ≠ p → replica.lookup q = none) →
        wfChildren cs = true →
        allReadableChildren cs = true →
        wfNode replica = true →
        ∃ r2 ch2 evs, fwdDir p cs replica ch = .ok (r2, ch2, evs) ∧
          (∀ q, matchFullAt ((Node.dir cs).lookup q) (r2.lookup (p ++ q))) ∧
          (∀ q, startsWith q p = false → startsWith p q = false →
            r2.lookup q = replica.lookup q) ∧
          (∀ q cs0, startsWith q p = true → q ≠ p →
            replica.lookup q = some (.dir cs0) → ∃ cs1, r2.lookup q = some (.dir cs1)) ∧
          wfNode r2 = true) := by
  intro k
  induction k with
  | zero => intro cs hk; exfalso; cases cs <;> simp at hk
  | succ k ih =>
    intro cs hk
    have hSub : ∀ (replica : Node) (p : List String) (ch : Changes)
        (rcs : List (String × Node)),
        replica.lookup p = some (.dir rcs) →
        (∀ nm ds, findChild cs nm = some (.dir ds) → replica.lookup (p ++ [nm]) = none) →
        wfChildren cs = true →
        allReadableChildren cs = true →
        wfNode replica = true →
        ∃ r2 ch2 evs, fwdSubdirs p cs replica ch = .ok (r2, ch2, evs) ∧
          (∀ nm ds, findChild cs nm = some (.dir ds) →
            ∀ q, matchFullAt ((Node.dir ds).lookup q) (r2.lookup ((p ++ [nm]) ++ q))) ∧
          (∀ q, startsWith q p = false →
            (∀ nm ds, findChild cs nm = some (.dir ds) →
              startsWith (p ++ [nm]) q = false) →
            r2.lookup q = replica.lookup q) ∧
          (∀ q cs0, startsWith q p = true → replica.lookup q = some (.dir cs0) →
            ∃ cs1, r2.lookup q = some (.dir cs1)) ∧
          wfNode r2 = true := by
      intro replica p ch rcs hp h2 hwf hread hwfr
      match cs, hk, h2, hwf, hread with
      | [], hk, h2, hwf, hread =>
        refine ⟨replica, ch, [], by rw [fwdSubdirs], ?_, ?_, ?_, hwfr⟩
        · intro nm ds h; simp [findChild] at h
        · intro q _ _; rfl
        · intro q cs0 _ h; exact ⟨cs0, h⟩
      | (name0, .file d0) :: rest, hk, h2, hwf, hread =>
        have hrest : sizeOf rest ≤ k := by simp at hk; omega
        simp only [wfChildren, Bool.and_eq_true] at hwf
        obtain ⟨⟨hnodup, _⟩, hwfrest⟩ := hwf
        simp only [allReadableChildren, Bool.and_eq_true] at hread
        obtain ⟨hreadhd, hreadrest⟩ := hread
        have hnodup2 : hasName rest name0 = false := by simpa using hnodup
        have hlift : ∀ nm ds, findChild rest nm = some (.dir ds) →
            findChild ((name0, Node.file d0) :: rest) nm = some (.dir ds) := by
          intro nm ds h
          by_cases hnm : name0 = nm
          · subst hnm
            rw [findChild_of_hasName_eq_false hnodup2] at h
            cases h
          · rw [findChild, if_neg hnm]; exact h
        obtain ⟨r2, ch2, evs, hrun, hSa, hSb, hSc, hSw⟩ :=
          (ih rest hrest).1 replica p ch rcs hp
            (fun nm ds h => h2 nm ds (hlift nm ds h)) hwfrest hreadrest hwfr
        refine ⟨r2, ch2, evs, ?_, ?_, ?_, hSc, hSw⟩
        · rw [fwdSubdirs]; exact hrun
        · intro nm ds h
          rw [findChild] at h
          by_cases hnm : name0 = nm
          · rw [if_pos hnm] at h; cases h
          · rw [if_neg hnm] at h; exact hSa nm ds h
        · intro q hq1 hq2
          exact hSb q hq1 (fun nm ds h => hq2 nm ds (hlift nm ds h))
      | (name0, .dir ds0) :: rest, hk, h2, hwf, hread =>
        have hsz : sizeOf rest ≤ k ∧ sizeOf ds0 ≤ k := by simp at hk; omega
        simp only [wfChildren, Bool.and_eq_true] at hwf
        obtain ⟨⟨hnodup, hwfds0⟩, hwfrest⟩ := hwf
        simp only [allReadableChildren, Bool.and_eq_true] at hread
        obtain ⟨hreadhd, hreadrest⟩ := hread
        have hreadds0 : allReadableChildren ds0 = true := by
          simpa [allReadableNode] using hreadhd
        have hnodup2 : hasName rest name0 = false := by simpa using hnodup
        have hfc0 : findChild ((name0, Node.dir ds0) :: rest) name0 =
            some (.dir ds0) := by rw [findChild]; simp
        have hlook0 : replica.lookup (p ++ [name0]) = none := h2 name0 ds0 hfc0
        -- run the walk of the head subtree
        obtain ⟨r1, ch1, e1, hrun1, hDa, hDb, hDc, hDw⟩ :=
          (ih ds0 hsz.2).2 replica (p ++ [name0]) ch
            (Or.inr ⟨hlook0, p, name0, rcs, rfl, hp⟩)
            (by
              intro q hq hqne
              obtain ⟨t, ht⟩ := sw_form hq
              have htne : t ≠ [] := by
                intro hh
                rw [hh] at ht
                exact hqne (by simpa using ht)
              rw [ht]
              exact lookup_none_extend t hlook0)
            (by simpa [wfNode] using hwfds0) hreadds0 hwfr
        -- then the rest of the level
        have hp1 : ∃ rcs1, r1.lookup p = some (.dir rcs1) :=
          hDc p rcs (sw_append p [name0]) (ne_snoc p name0) hp
        obtain ⟨rcs1, hp1⟩ := hp1
        have h2r : ∀ nm ds, findChild rest nm = some (.dir ds) →
            r1.lookup (p ++ [nm]) = none := by
          intro nm ds h
          have hne : ¬ (name0 = nm) := by
            intro hh
            subst hh
            rw [findChild_of_hasName_eq_false hnodup2] at h
            cases h
          have hswA : startsWith (p ++ [nm]) (p ++ [name0]) = false := by
            rw [sw_strip]
            have hne2 : ¬ (nm = name0) := fun hh => hne hh.symm
            simp [startsWith, hne2]
          have hswB : startsWith (p ++ [name0]) (p ++ [nm]) = false := by
            rw [sw_strip]
            simp [startsWith, hne]
          rw [hDb (p ++ [nm]) hswA hswB]
          apply h2 nm ds
          by_cases hnm : name0 = nm
          · exact absurd hnm hne
          · rw [findChild, if_neg hnm]; exact h
        obtain ⟨r2, ch2, e2, hrun2, hSa, hSb, hSc, hSw⟩ :=
          (ih rest hsz.1).1 r1 p ch1 rcs1 hp1 h2r hwfrest hreadrest hDw
        refine ⟨r2, ch2, e1 ++ e2, ?_, ?_, ?_, ?_, hSw⟩
        · rw [fwdSubdirs]
          simp [hrun1, hrun2]
        · intro nm ds h q
          by_cases hnm : name0 = nm
          · subst hnm
            rw [hfc0] at h
            injection h with h
            injection h with h
            subst h
            have hq1 : startsWith ((p ++ [name0]) ++ q) p = false :=
              sw_snocext_false p name0 q
            have hq2 : ∀ nm2 ds2, findChild rest nm2 = some (.dir ds2) →
                startsWith (p ++ [nm2]) ((p ++ [name0]) ++ q) = false := by
              intro nm2 ds2 h2f
              have hne : ¬ (nm2 = name0) := by
                intro hh
                subst hh
                rw [findChild_of_hasName_eq_false hnodup2] at h2f
                cases h2f
              exact sw_snoc_vs_snocext hne p q
            rw [hSb ((p ++ [name0]) ++ q) hq1 hq2]
            exact hDa q
          · rw [findChild, if_neg hnm] at h
            exact hSa nm ds h q
        · intro q hq1 hq2
          have hA : startsWith (p ++ [name0]) q = false := hq2 name0 ds0 hfc0
          have hB : startsWith q (p ++ [name0]) = false := sw_to_snoc_false hq1 hA
          rw [hSb q hq1 (fun nm ds h => hq2 nm ds (by
            by_cases hnm : name0 = nm
            · subst hnm
              rw [findChild_of_hasName_eq_false hnodup2] at h
              cases h
            · rw [findChild, if_neg hnm]; exact h))]
          exact hDb q hB hA
        · intro q cs0 hq hlq
          have hqs : startsWith q (p ++ [name0]) = true :=
            sw_trans hq (sw_append p [name0])
          have hqne : q ≠ p ++ [name0] := by
            intro hh
            rw [hh] at hq
            rw [sw_snoc_self_false] at hq
            cases hq
          obtain ⟨cs1, hcs1⟩ := hDc q cs0 hqs hqne hlq
          exact hSc q cs1 hq hcs1
    refine ⟨hSub, ?_⟩
    intro replica p ch hor h2 hwf hread hwfr
    -- step 1: ensure the replica directory for this walk root exists
    have hstep1 : ∃ r1 ch1 e1 rcs1,
        (if (replica.lookup p).isSome then (replica, ch, ([] : List Ev))
          else create_folder replica p ch) = (r1, ch1, e1) ∧
        r1.lookup p = some (.dir rcs1) ∧
        (∀ q, startsWith p q = true → q ≠ p → r1.lookup q = none) ∧
        (∀ q, startsWith q p = false → startsWith p q = false →
          r1.lookup q = replica.lookup q) ∧
        (∀ q cs0, startsWith q p = true → q ≠ p →
          replica.lookup q = some (.dir cs0) → ∃ cs1, r1.lookup q = some (.dir cs1)) ∧
        wfNode r1 = true := by
      rcases hor with ⟨rcs, hp⟩ | ⟨hpnone, pp, x, pcs, hpeq, hpp⟩
      · refine ⟨replica, ch, [], rcs, by simp [hp], hp, h2, ?_, ?_, hwfr⟩
        · intro q _ _; rfl
        · intro q cs0 _ _ h; exact ⟨cs0, h⟩
      · subst hpeq
        have hfcx : findChild pcs x = none := findChild_none_of_lookup_none hpp hpnone
        obtain ⟨r1, hmk, hM1, hM2, hM3, hM4, hM5⟩ :=
          makedirs_spec pp x replica pcs hpp hfcx
        refine ⟨r1, (ch.1, ch.2 + 1), [Ev.createdFolder (pp ++ [x])], [],
          ?_, hM1, ?_, ?_, ?_, hM5 hwfr⟩
        · simp [hpnone, create_folder, hmk]
        · intro q hq hqne
          exact hM3 q hq hqne
        · intro q hq1 hq2
          exact hM2 q hq2 hq1
        · intro q cs0 hq hqne hlq
          exact hM4 q cs0 hq hqne hlq
    obtain ⟨r1, ch1, e1, rcs1, hif, hp1, hbelow1, hunch1, hanc1, hwf1⟩ := hstep1
    -- step 2: the files of this directory
    obtain ⟨rF, chF, eF, hrunF, hCa, hCb, hCc, hCw⟩ :=
      fwdFiles_build p cs r1 ch1 rcs1 hp1
        (fun nm _ => hbelow1 (p ++ [nm]) (sw_append p [nm]) (ne_snoc p nm).symm) hwf hread
    -- step 3: the subdirectories
    have hpF : ∃ rcsF, rF.lookup p = some (.dir rcsF) :=
      hCc p rcs1 (sw_refl p) hp1
    obtain ⟨rcsF, hpF⟩ := hpF
    have h2S : ∀ nm ds, findChild cs nm = some (.dir ds) →
        rF.lookup (p ++ [nm]) = none := by
      intro nm ds h
      have hnmname : hasName cs nm = true := findChild_isSome_hasName h
      rw [hCb (p ++ [nm]) (sw_snoc_self_false p nm) ?_]
      · exact hbelow1 (p ++ [nm]) (sw_append p [nm]) (ne_snoc p nm).symm
      · intro nm2 d2 h2f
        have hne : ¬ (nm2 = nm) := by
          intro hh
          subst hh
          rw [h2f] at h
          cases h
        rw [sw_strip]
        simp [startsWith, hne]
    obtain ⟨r3, ch3, eS, hrunS, hSa, hSb, hSc, hSw⟩ :=
      hSub rF p chF rcsF hpF h2S hwf hread (hCw hwf1)
    refine ⟨r3, ch3, e1 ++ eF ++ eS, ?_, ?_, ?_, ?_, hSw⟩
    · rw [fwdDir, hif]
      simp [hrunF, hrunS]
    · -- every source entry is mirrored below p
      intro q
      cases q with
      | nil =>
        obtain ⟨csx, hcsx⟩ := hSc p rcsF (sw_refl p) hpF
        simp only [List.append_nil]
        rw [lookup_nil, hcsx]
        exact trivial
      | cons nm q2 =>
        rw [List.append_cons p nm q2]
        cases hfc : findChild cs nm with
        | none =>
          have hnof : ∀ nm2 d2, findChild cs nm2 = some (.file d2) →
              startsWith (p ++ [nm2]) ((p ++ [nm]) ++ q2) = false := by
            intro nm2 d2 h2f
            have hne : ¬ (nm2 = nm) := by
              intro hh
              subst hh
              rw [h2f] at hfc
              cases hfc
            exact sw_snoc_vs_snocext hne p q2
          have hnod : ∀ nm2 ds2, findChild cs nm2 = some (.dir ds2) →
              startsWith (p ++ [nm2]) ((p ++ [nm]) ++ q2) = false := by
            intro nm2 ds2 h2f
            have hne : ¬ (nm2 = nm) := by
              intro hh
              subst hh
              rw [h2f] at hfc
              cases hfc
            exact sw_snoc_vs_snocext hne p q2
          rw [hSb ((p ++ [nm]) ++ q2) (sw_snocext_false p nm q2) hnod,
            hCb ((p ++ [nm]) ++ q2) (sw_snocext_false p nm q2) hnof]
          have hr1 : r1.lookup ((p ++ [nm]) ++ q2) = none := by
            rw [List.append_assoc]
            exact hbelow1 (p ++ ([nm] ++ q2)) (sw_append p ([nm] ++ q2))
              (append_ne_left p (by intro hh; cases hh))
          rw [hr1]
          simp only [Node.lookup, hfc]
          exact trivial
        | some c =>
          cases c with
          | file d =>
            have hnod : ∀ nm2 ds2, findChild cs nm2 = some (.dir ds2) →
                startsWith (p ++ [nm2]) ((p ++ [nm]) ++ q2) = false := by
              intro nm2 ds2 h2f
              have hne : ¬ (nm2 = nm) := by
                intro hh
                subst hh
                rw [h2f] at hfc
                cases hfc
              exact sw_snoc_vs_snocext hne p q2
            rw [hSb ((p ++ [nm]) ++ q2) (sw_snocext_false p nm q2) hnod]
            cases q2 with
            | nil =>
              simp only [List.append_nil]
              rw [hCa nm d hfc]
              simp only [Node.lookup, hfc]
              exact rfl
            | cons w q3 =>
              have hfq : rF.lookup (p ++ [nm]) = some (.file d) := hCa nm d hfc
              rw [lookup_below_file hfq (by intro hh; cases hh)]
              simp only [Node.lookup, hfc]
              exact trivial
          | dir ds =>
            have := hSa nm ds hfc q2
            simp only [Node.lookup, hfc]
            exact this
    · -- untouched outside the subtree of p
      intro q hq1 hq2
      have hnod : ∀ nm ds, findChild cs nm = some (.dir ds) →
          startsWith (p ++ [nm]) q = false := by
        intro nm ds _
        cases hss : startsWith (p ++ [nm]) q with
        | false => rfl
        | true =>
          have := sw_trans (sw_append p [nm]) hss
          rw [hq2] at this
          cases this
      have hnof : ∀ nm d, findChild cs nm = some (.file d) →
          startsWith (p ++ [nm]) q = false := by
        intro nm d _
        cases hss : startsWith (p ++ [nm]) q with
        | false => rfl
        | true =>
          have := sw_trans (sw_append p [nm]) hss
          rw [hq2] at this
          cases this
      rw [hSb q hq1 hnod, hCb q hq1 hnof, hunch1 q hq1 hq2]
    · -- ancestors keep their directory kind
      intro q cs0 hq hqne hlq
      obtain ⟨cs1, h1⟩ := hanc1 q cs0 hq hqne hlq
      obtain ⟨cs2, hc2⟩ := hCc q cs1 hq h1
      exact hSc q cs2 hq hc2

theorem matchFullAt_isSome {a b : Option Node} (h : matchFullAt a b) :
    a.isSome = b.isSome := by
  match a, b, h with
  | none, none, _ => rfl
  | some (.dir _), some (.dir _), _ => rfl
  | some (.file _), some (.file _), _ => rfl

theorem matchFullAt_to_matchAt {a b : Option Node} (h : matchFullAt a b) : matchAt a b := by
  match a, b, h with
  | none, none, _ => exact trivial
  | some (.dir _), some (.dir _), _ => exact trivial
  | some (.file d1), some (.file d2), h =>
    have hd : d1 = d2 := h
    exact congrArg FileData.content hd

theorem lookup_cons_isSome {cs : List (String × Node)} {x : String} {q2 : List String}
    (h : ((Node.dir cs).lookup (x :: q2)).isSome = true) :
    ∃ c, findChild cs x = some c ∧ (c.lookup q2).isSome = true := by
  simp only [Node.lookup] at h
  cases hf : findChild cs x with
  | none => rw [hf] at h; cases h
  | some c =>
    rw [hf] at h
    exact ⟨c, rfl, h⟩

theorem covered_of_ext :
    ∀ (k : Nat) (rcs : List (String × Node)), sizeOf rcs ≤ k →
      ∀ (s : Node) (p : List String),
        wfChildren rcs = true →
        (∀ q, ((Node.dir rcs).lookup q).isSome = true →
          (s.lookup (p ++ q)).isSome = true) →
        coveredChildren s p rcs = true := by
  intro k
  induction k with
  | zero => intro rcs hk; exfalso; cases rcs <;> simp at hk
  | succ k ih =>
    intro rcs hk s p hwf hext
    match rcs, hk, hwf with
    | [], hk, hwf => rw [coveredChildren]
    | (name, .file d) :: rest, hk, hwf =>
      have hrest : sizeOf rest ≤ k := by simp at hk; omega
      simp only [wfChildren, Bool.and_eq_true] at hwf
      have hnodup2 : hasName rest name = false := by simpa using hwf.1.1
      rw [coveredChildren]
      have hs1 : (s.lookup (p ++ [name])).isSome = true := by
        apply hext [name]
        rw [lookup_singleton, findChild, if_pos rfl]
        rfl
      have hsrest : coveredChildren s p rest = true := by
        apply ih rest hrest s p hwf.2
        intro q hq
        cases q with
        | nil => simpa using hext [] (by rw [lookup_nil]; rfl)
        | cons x q2 =>
          obtain ⟨c, hfc, hcq⟩ := lookup_cons_isSome hq
          have hnx : ¬ (name = x) := by
            intro hh
            subst hh
            rw [findChild_of_hasName_eq_false hnodup2] at hfc
            cases hfc
          apply hext (x :: q2)
          rw [lookup_dir_cons_ne (fun hh => hnx hh) (Node.file d) rest q2]
          simp only [Node.lookup, hfc]
          exact hcq
      rw [hs1, hsrest]
      rfl
    | (name, .dir ds) :: rest, hk, hwf =>
      have hsz : sizeOf rest ≤ k ∧ sizeOf ds ≤ k := by simp at hk; omega
      simp only [wfChildren, Bool.and_eq_true] at hwf
      have hnodup2 : hasName rest name = false := by simpa using hwf.1.1
      rw [coveredChildren]
      have hs1 : (s.lookup (p ++ [name])).isSome = true := by
        apply hext [name]
        rw [lookup_singleton, findChild, if_pos rfl]
        rfl
      have hsds : coveredChildren s (p ++ [name]) ds = true := by
        apply ih ds hsz.2 s (p ++ [name]) (by simpa [wfNode] using hwf.1.2)
        intro q hq
        rw [← List.append_cons]
        apply hext (name :: q)
        rw [lookup_dir_head]
        exact hq
      have hsrest : coveredChildren s p rest = true := by
        apply ih rest hsz.1 s p hwf.2
        intro q hq
        cases q with
        | nil => simpa using hext [] (by rw [lookup_nil]; rfl)
        | cons x q2 =>
          obtain ⟨c, hfc, hcq⟩ := lookup_cons_isSome hq
          have hnx : ¬ (name = x) := by
            intro hh
            subst hh
            rw [findChild_of_hasName_eq_false hnodup2] at hfc
            cases hfc
          apply hext (x :: q2)
          rw [lookup_dir_cons_ne (fun hh => hnx hh) (Node.dir ds) rest q2]
          simp only [Node.lookup, hfc]
          exact hcq
      rw [hs1, hsds, hsrest]
      rfl

/-! Claim C1: one cycle mirrors a source tree into an empty replica. -/

/-- C1 counterexample: on a source whose only file cannot be opened for
reading, the cycle still completes — the `PermissionError` raised by
`shutil.copy2` is caught at lines 106-109 and logged as exactly one
error line — but the file is never copied, so the replica (still empty)
is not content-identical to the source: convergence fails for this
source tree, refuting the claim as stated for every source tree. -/
theorem C1_counterexample_unreadable_source_file :
    sync_cycle (Node.dir [("a", Node.file ⟨[1], 5, false⟩)]) (Node.dir []) allOkEnv =
      .ok (Node.dir [], (0, 0), [Ev.errorEv "copy/update" ["a"]]) ∧
    ¬ matchAt ((Node.dir [("a", Node.file ⟨[1], 5, false⟩)]).lookup ["a"])
        ((Node.dir []).lookup ["a"]) := by
  constructor
  · simp [sync_cycle, create_or_update_files_and_folders, fwdDir, fwdFiles, fwdSubdirs,
      syncFile, Node.lookup, findChild, copy_or_update_file, Node.copy2,
      remove_deleted_files_and_folders, revDir, revFiles, revDirs, revDescend]
  · intro h
    simp [Node.lookup, findChild, matchAt] at h

/-- C1 amended: for any well-formed source tree all of whose files are
readable, and an empty replica, one full cycle (forward create/update
pass followed by the reverse delete pass) succeeds and leaves the
replica structurally and content-identical to the source: every
relative path carries the same kind on both sides and every file
carries the same bytes. (An unreadable source file is instead skipped
with one logged error and stays missing from the replica, as the
counterexample shows.) -/
theorem C1_empty_replica_converges (cs : List (String × Node)) (env : FsEnv)
    (hwf : wfChildren cs = true) (hread : allReadableChildren cs = true) :
    ∃ r ch evs, sync_cycle (Node.dir cs) (Node.dir []) env = .ok (r, ch, evs) ∧
      ∀ q, matchAt ((Node.dir cs).lookup q) (r.lookup q) := by
  obtain ⟨r2, ch2, evs2, hrun, hDa, _, _, hDw⟩ :=
    (fwd_build_aux (sizeOf cs) cs (Nat.le_refl _)).2 (Node.dir []) [] (0, 0)
      (Or.inl ⟨[], by rw [lookup_nil]⟩)
      (by
        intro q hq hqne
        cases q with
        | nil => exact absurd rfl hqne
        | cons x q2 => simp [Node.lookup, findChild])
      hwf hread (by simp [wfNode, wfChildren])
  have hAa : ∀ q, matchFullAt ((Node.dir cs).lookup q) (r2.lookup q) := by
    intro q
    have := hDa q
    simpa using this
  cases r2 with
  | file d =>
    exfalso
    have h0 := hAa []
    rw [lookup_nil, lookup_nil] at h0
    exact h0
  | dir rcs2 =>
    have hwfr2 : wfChildren rcs2 = true := by simpa [wfNode] using hDw
    have hcov : coveredChildren (Node.dir cs) [] rcs2 = true := by
      apply covered_of_ext (sizeOf rcs2) rcs2 (Nat.le_refl _) (Node.dir cs) []
        hwfr2
      intro q hq
      have h1 := matchFullAt_isSome (hAa q)
      simpa [← h1] using hq
    have hrev := (rev_noop_aux (sizeOf rcs2) rcs2 (Nat.le_refl _)).2 (Node.dir cs) env []
      ch2 hcov
    refine ⟨Node.dir rcs2, ch2, evs2, ?_, ?_⟩
    · simp only [sync_cycle, create_or_update_files_and_folders, hrun,
        remove_deleted_files_and_folders, hrev]
      simp
    · intro q
      exact matchFullAt_to_matchAt (hAa q)

/-- C1 witness: a source with a readable file, an empty folder and a
nested readable file is mirrored exactly into an empty replica by one
cycle. -/
theorem C1_empty_replica_converges_witness :
    wfChildren [("a", Node.file ⟨[1, 2], 5, true⟩),
      ("sub", Node.dir [("b", Node.file ⟨[3], 7, true⟩)])] = true ∧
    allReadableChildren [("a", Node.file ⟨[1, 2], 5, true⟩),
      ("sub", Node.dir [("b", Node.file ⟨[3], 7, true⟩)])] = true ∧
    ∃ r ch evs,
      sync_cycle
        (Node.dir [("a", Node.file ⟨[1, 2], 5, true⟩),
          ("sub", Node.dir [("b", Node.file ⟨[3], 7, true⟩)])])
        (Node.dir []) allOkEnv = .ok (r, ch, evs) ∧
      ∀ q, matchAt ((Node.dir [("a", Node.file ⟨[1, 2], 5, true⟩),
        ("sub", Node.dir [("b", Node.file ⟨[3], 7, true⟩)])]).lookup q) (r.lookup q) := by
  refine ⟨?_, ?_, ?_⟩
  · simp [wfChildren, wfNode, hasName]
  · simp [allReadableChildren, allReadableNode]
  · exact C1_empty_replica_converges _ allOkEnv
      (by simp [wfChildren, wfNode, hasName])
      (by simp [allReadableChildren, allReadableNode])

/-! Claim C3: idempotence of a second cycle. -/

/-- C3: when the replica already mirrors the source — every source entry
present with the same kind and, for files, identical bytes and an
identical (copy-preserved) modification time — and the replica has no
entry whose path is absent from the source, a cycle performs no create,
update or delete action at all: the replica tree is returned unchanged,
no line is logged, and the change counters end at (0, 0). This is the
state in which a successful cycle leaves the replica (shutil.copy2
preserves the modification time), so a second cycle with an unchanged
source is a no-op. -/
theorem C3_second_cycle_is_noop (cs rcs : List (String × Node)) (env : FsEnv)
    (hmir : mirroredChildren (Node.dir rcs) [] cs = true)
    (hcov : coveredChildren (Node.dir cs) [] rcs = true) :
    sync_cycle (Node.dir cs) (Node.dir rcs) env = .ok (Node.dir rcs, (0, 0), []) := by
  have hfwd := (fwd_noop_aux (sizeOf cs) cs (Nat.le_refl _)).2 (Node.dir rcs) [] (0, 0)
    (by rw [lookup_nil]; rfl) hmir
  have hrev := (rev_noop_aux (sizeOf rcs) rcs (Nat.le_refl _)).2 (Node.dir cs) env [] (0, 0)
    hcov
  simp only [sync_cycle, create_or_update_files_and_folders, hfwd,
    remove_deleted_files_and_folders, hrev]
  simp

/-- C3 witness: a two-entry source mirrored exactly by the replica makes
the cycle a no-op with counters (0, 0). -/
theorem C3_second_cycle_is_noop_witness :
    sync_cycle (Node.dir [("a", Node.file ⟨[1], 5, true⟩), ("d", Node.dir [])])
        (Node.dir [("a", Node.file ⟨[1], 5, true⟩), ("d", Node.dir [])]) allOkEnv =
      .ok (Node.dir [("a", Node.file ⟨[1], 5, true⟩), ("d", Node.dir [])], (0, 0), []) :=
  C3_second_cycle_is_noop _ _ allOkEnv
    (by simp [mirroredChildren, fileDataAt, isDirAt, Node.lookup, findChild])
    (by simp [coveredChildren, Node.lookup, findChild])

/-! Claim C8: a deleted folder short-circuits descendant deletes. -/

/-- C8: within one reverse pass over a well-formed replica, once a
folder has been deleted (a Deleted-folder line was logged for path `q`),
no other logged action or error of the pass — in particular no file or
folder delete — targets a strict descendant of `q`: the walk never
descends into a removed directory, so its contents are neither
re-deleted nor re-counted individually. -/
theorem C8_deleted_folder_descendants_not_retargeted (source replica : Node) (env : FsEnv)
    (ch : Changes) (q : List String) (nf nd : Nat) (ev : Ev)
    (hwf : wfNode replica = true)
    (hq : Ev.deletedFolder q nf nd ∈
      (remove_deleted_files_and_folders source replica env ch).2.2)
    (hev : ev ∈ (remove_deleted_files_and_folders source replica env ch).2.2) :
    underPath q (evPath ev) = false := by
  cases replica with
  | file d =>
    rw [remove_deleted_files_and_folders] at hq
    simp at hq
  | dir cs =>
    rw [remove_deleted_files_and_folders] at hq hev
    simp only at hq hev
    have hwf2 : wfChildren cs = true := by simpa [wfNode] using hwf
    exact (rev_noretarget_aux (sizeOf cs) cs (Nat.le_refl _)).2 source env [] ch
      q nf nd ev hwf2 hq hev

/-- C8 witness: deleting the stray folder `b` (one file inside) logs one
Deleted-folder line, and the only other action of the pass (deleting the
stray file `c`) does not target anything inside `b`. -/
theorem C8_deleted_folder_descendants_not_retargeted_witness :
    wfNode (Node.dir [("b", Node.dir [("f", Node.file ⟨[], 0, true⟩)]),
      ("c", Node.file ⟨[], 0, true⟩)]) = true ∧
    underPath ["b"] (evPath (Ev.deletedFile ["c"])) = false := by
  constructor
  · simp [wfNode, wfChildren, hasName]
  · exact C8_deleted_folder_descendants_not_retargeted (Node.dir [])
      (Node.dir [("b", Node.dir [("f", Node.file ⟨[], 0, true⟩)]),
        ("c", Node.file ⟨[], 0, true⟩)]) allOkEnv (0, 0) ["b"] 1 0
      (Ev.deletedFile ["c"])
      (by simp [wfNode, wfChildren, hasName])
      (by simp [remove_deleted_files_and_folders, revDir, revFiles, revDirs, revDescend,
        delete_folder, wasFileDeleted, wasDirDeleted, allOkEnv, Node.lookup, findChild,
        countFilesIn, countSubdirsIn])
      (by simp [remove_deleted_files_and_folders, revDir, revFiles, revDirs, revDescend,
        delete_folder, wasFileDeleted, wasDirDeleted, allOkEnv, Node.lookup, findChild,
        countFilesIn, countSubdirsIn])

/-! Claim C4: what the reverse pass deletes. -/

/-- C4 counterexample: a replica file whose relative path exists in the
source as a directory (a kind mismatch) is NOT deleted by the reverse
pass — `os.path.exists` is kind-blind, so the pass leaves the file in
place, performs no action and logs nothing, where the claim requires a
delete. -/
theorem C4_counterexample_kind_mismatch_not_deleted :
    remove_deleted_files_and_folders (Node.dir [("a", Node.dir [])])
        (Node.dir [("a", Node.file ⟨[7], 3, true⟩)]) allOkEnv (0, 0) =
      (Node.dir [("a", Node.file ⟨[7], 3, true⟩)], (0, 0), []) := by
  simp [remove_deleted_files_and_folders, revDir, revFiles, revDirs, revDescend,
    wasFileDeleted, wasDirDeleted, allOkEnv, Node.lookup, findChild, delete_folder]

/-- C4 amended: with every deletion primitive succeeding, the reverse
pass keeps a replica path exactly when the source has an entry of ANY
kind at that path (`os.path.exists` is kind-blind): every replica entry
whose relative path is absent from the source disappears (directly or
with a deleted ancestor), while a kind-mismatched path survives. -/
theorem C4_amended_reverse_pass_keeps_iff_source_path_exists
    (source replica : Node) (ch : Changes) (q : List String) :
    ((remove_deleted_files_and_folders source replica allOkEnv ch).1.lookup q).isSome =
      ((replica.lookup q).isSome && (source.lookup q).isSome) := by
  cases replica with
  | file d =>
    rw [remove_deleted_files_and_folders]
    cases q with
    | nil => simp [Node.lookup, lookup_nil]
    | cons x q2 => simp [Node.lookup]
  | dir cs =>
    rw [remove_deleted_files_and_folders]
    obtain ⟨chA, chB, evB, heq⟩ := revDir_fst source allOkEnv [] cs ch
    have hp : (source.lookup ([] : List String)).isSome = true := by
      rw [lookup_nil]
      rfl
    have := revDescend_keep_aux (sizeOf cs) cs (Nat.le_refl _) source [] chA q hp
    simp only [heq, List.nil_append] at this ⊢
    exact this

/-! Claim C5: an uncaught digest error kills the whole cycle. -/

/-- C5: the digest computation at line 144 of `src/main.py` sits outside
every `try/except`; on a source tree whose file `a` is unreadable (and
has the same modification time as its replica counterpart, so the digest
is consulted), the exception escapes `create_or_update_files_and_folders`
and the whole cycle dies — the later file `b` is never copied and the
reverse pass never runs, contradicting per-path error isolation. -/
theorem C5_fingerprint_error_aborts_cycle :
    sync_cycle
      (Node.dir [("a", Node.file ⟨[1], 5, false⟩), ("b", Node.file ⟨[2], 6, true⟩)])
      (Node.dir [("a", Node.file ⟨[9], 5, true⟩)]) allOkEnv = .error () := by
  simp [sync_cycle, create_or_update_files_and_folders, fwdDir, fwdFiles, fwdSubdirs,
    syncFile, Node.lookup, findChild, Node.getmtime, calculate_sha1, sha1OfNode,
    copy_or_update_file, Node.copy2, Node.writeFile, setChild, create_folder,
    Node.makedirs]

/-! Claim C7: counters of a recursive folder deletion. -/

/-- C7: when a replica folder absent from the source is deleted, the
files counter grows by the number of files recursively contained in the
folder, and the folders counter grows by the number of recursively
contained subfolders plus one for the folder itself (and the one logged
Deleted line is annotated with those counts). -/
theorem C7_delete_folder_counts (p : List String) (ds : List (String × Node)) (ch : Changes) :
    delete_folder p ds true ch =
      ((ch.1 + totalFiles ds, ch.2 + totalSubfolders ds + 1),
        [Ev.deletedFolder p (totalFiles ds) (totalSubfolders ds)], true) := by
  simp [delete_folder, countFilesIn_eq_totalFiles, countSubdirsIn_eq_totalSubfolders]

/-! Claim C10: the counters are increased before the removal is
attempted, so a failed removal still leaves them increased. -/

/-- C10: `delete_folder` adds the pre-counted numbers of contained files
and subfolders to the counters before attempting `shutil.rmtree`; when
the removal fails, the counters keep those amounts (only the final +1
for the folder itself is skipped), exactly one error line is logged, and
the folder (with everything in it) was not removed. -/
theorem C10_delete_folder_counts_despite_failure (p : List String)
    (ds : List (String × Node)) (ch : Changes) :
    delete_folder p ds false ch =
      ((ch.1 + totalFiles ds, ch.2 + totalSubfolders ds),
        [Ev.errorEv "delete" p], false) := by
  simp [delete_folder, countFilesIn_eq_totalFiles, countSubdirsIn_eq_totalSubfolders]

/-! Claim C9: the scheduler loop. -/

theorem cycleStart_mem_events (t n m : Nat) :
    LoopEv.cycleStart m ∈ sync_folders_events t n ↔ (n ≤ m ∧ 2 * (m - n) < t) := by
  induction t, n using sync_folders_events.induct generalizing m with
  | case1 k => simp [sync_folders_events]
  | case2 k =>
    simp only [sync_folders_events, List.mem_cons, List.mem_singleton,
      List.not_mem_nil, or_false]
    constructor
    · rintro (h | h | h) <;> first
        | (cases h; constructor <;> omega)
        | (exact absurd h (by simp))
    · rintro ⟨h1, h2⟩
      have hm : m = k := by omega
      subst hm; left; rfl
  | case3 t2 k ih =>
    simp only [sync_folders_events, List.mem_cons]
    rw [ih]
    constructor
    · rintro (h | h | h | ⟨h1, h2⟩)
      · cases h; constructor <;> omega
      · exact absurd h (by simp)
      · exact absurd h (by simp)
      · constructor <;> omega
    · rintro ⟨h1, h2⟩
      by_cases hm : m = k
      · subst hm; left; rfl
      · right; right; right; constructor <;> omega

theorem cycleEnd_mem_events (t n m : Nat) :
    LoopEv.cycleEnd m ∈ sync_folders_events t n ↔ (n ≤ m ∧ 2 * (m - n) < t) := by
  induction t, n using sync_folders_events.induct generalizing m with
  | case1 k => simp [sync_folders_events]
  | case2 k =>
    simp only [sync_folders_events, List.mem_cons, List.mem_singleton,
      List.not_mem_nil, or_false]
    constructor
    · rintro (h | h | h) <;> first
        | (cases h; constructor <;> omega)
        | (exact absurd h (by simp))
    · rintro ⟨h1, h2⟩
      have hm : m = k := by omega
      subst hm; right; left; rfl
  | case3 t2 k ih =>
    simp only [sync_folders_events, List.mem_cons]
    rw [ih]
    constructor
    · rintro (h | h | h | ⟨h1, h2⟩)
      · exact absurd h (by simp)
      · cases h; constructor <;> omega
      · exact absurd h (by simp)
      · constructor <;> omega
    · rintro ⟨h1, h2⟩
      by_cases hm : m = k
      · subst hm; right; left; rfl
      · right; right; right; constructor <;> omega

/-- C9: with the stop flag first observed set at read number `t` (reads
happen at the top-of-loop check and at each between-cycle wait), cycle
`n` starts exactly when its top-of-loop check (read number `2*(n-1)`)
happens before the flag is set — so once the flag is set no new cycle
ever starts; every cycle that starts also completes (the body has no
further flag checks); and when the flag is not set at process start the
very first event is the start of cycle 1, with no wait before it. -/
theorem C9_scheduler_cancellation (t n : Nat) :
    (LoopEv.cycleStart n ∈ syncTrace t ↔ (1 ≤ n ∧ 2 * (n - 1) < t)) ∧
    (LoopEv.cycleStart n ∈ syncTrace t → LoopEv.cycleEnd n ∈ syncTrace t) ∧
    (1 ≤ t → (syncTrace t).head? = some (.cycleStart 1)) := by
  refine ⟨?_, ?_, ?_⟩
  · rw [syncTrace, cycleStart_mem_events]
  · rw [syncTrace, cycleStart_mem_events, cycleEnd_mem_events]
    exact fun h => h
  · intro ht
    match t, ht with
    | 1, _ => rfl
    | (t + 2), _ => rfl

/-- C9 witness: for the concrete flag schedule in which the flag is set
during the first wait, cycle 1 starts, completes, and is the first
event. -/
theorem C9_scheduler_cancellation_witness :
    LoopEv.cycleStart 1 ∈ syncTrace 1 ∧ LoopEv.cycleEnd 1 ∈ syncTrace 1 ∧
      (syncTrace 1).head? = some (.cycleStart 1) :=
  ⟨by decide,
   (C9_scheduler_cancellation 1 1).2.1 (by decide),
   (C9_scheduler_cancellation 1 1).2.2 (by decide)⟩

/-! Claim C6: interval validation. -/

/-- C6 counterexample: with both directories valid and the interval
string `"0"`, `check_input` returns normally (it only checks that
`int(interval)` does not raise) and the synchronization loop then runs
its first cycle — the program neither exits nor refuses to run a cycle
for a non-positive interval. -/
theorem C6_counterexample_zero_interval_accepted :
    check_input true true (some 0) = .ok ∧ LoopEv.cycleStart 1 ∈ syncTrace 1 := by
  constructor
  · rfl
  · decide

/-- C6 amended: a non-integer interval is rejected before the loop with
a diagnostic (`sys.exit(1)`), but a non-positive integer interval is not
rejected anywhere: `check_input` accepts every integer, and the loop
starts cycle 1 regardless (a non-positive wait timeout merely makes the
between-cycle wait return immediately). -/
theorem C6_amended_only_non_integer_rejected (i : Int) (_hi : i ≤ 0) :
    check_input true true (some i) = .ok ∧
    check_input true true none = .exitBadInterval ∧
    LoopEv.cycleStart 1 ∈ syncTrace 1 := by
  refine ⟨rfl, rfl, by decide⟩

/-- C6 amended witness: the amended statement at interval 0. -/
theorem C6_amended_witness :
    (0 : Int) ≤ 0 ∧
      (check_input true true (some 0) = .ok ∧
       check_input true true none = .exitBadInterval ∧
       LoopEv.cycleStart 1 ∈ syncTrace 1) :=
  ⟨by decide, C6_amended_only_non_integer_rejected 0 (by decide)⟩

end SyncSpec
